import Mathlib

/-!
Verification of the hierarchical budget-allocation engine of the
`tential_salesforecast` repository, against its natural-language
specification.

The embedding is shallow: every definition below is a direct translation
of a function (or an inline code block) of the TypeScript source.  JS
strings are modelled as `List Char`; JS integers as `Nat` (exact for
values below 2^53, which is the range the application works in); the two
places where the source performs non-integral floating-point arithmetic
(`parentAmount * (percentage / 100)` in `updateAllocation`) are modelled
by an executable IEEE-754 binary64 round-to-nearest-even model over
scaled integers, validated below.  Definitions whose names match the
source (`buildHierarchyPath`, `buildHierarchyTree`, `getParentAmount`,
`updateAllocation`, ...) are translated line by line from
`src/app/dashboard/[categoryId]/[sessionId]/spreadsheet/page.tsx` and the
API route handlers; definitions prefixed with `spec` are modelled from
the specification's words, for comparison against the code.
-/

set_option maxRecDepth 100000

/-! ## Strings

JS strings are modelled as lists of characters.  `jsSplit` is
`String.prototype.split('/')` (so `jsSplit "" = [""]`), `jsJoin` is
`Array.prototype.join('/')`. -/

abbrev Str := List Char

/-- Convenience conversion from a Lean string literal to the model type. -/
def str (s : String) : Str := s.data

/-- JS `s.split('/')`: never returns the empty list; splitting the empty
string yields `[""]`. -/
def jsSplit : Str → List Str
  | [] => [[]]
  | c :: rest =>
    if c = '/' then [] :: jsSplit rest
    else
      match jsSplit rest with
      | s :: ss => (c :: s) :: ss
      | [] => [[c]]

/-- JS `parts.join('/')`. -/
def jsJoin : List Str → Str
  | [] => []
  | [x] => x
  | x :: y :: ys => x ++ '/' :: jsJoin (y :: ys)

/-- The source's `parts.slice(0, -1).join('/')` applied to
`parts = path.split('/')`: the path with its last `/`-separated segment
removed. -/
def dropLastSeg (s : Str) : Str := jsJoin (jsSplit s).dropLast

/-- The source's `path.split('/').pop()`: the last `/`-separated segment. -/
def lastSeg (s : Str) : Str := ((jsSplit s).getLast?).getD []

/-! ## IEEE-754 binary64 model

`updateAllocation` computes `Math.floor(parentAmount * (percentage / 100))`
with JS `number` (binary64) arithmetic.  The model below rounds an exact
non-negative rational `a / b` to the nearest double (ties to even) using
only natural-number arithmetic, so that every theorem can be evaluated by
`decide`.  Overflow and subnormals are irrelevant in the range used
(`0 < a/b < 2^200`, far inside the binary64 normal range). -/

/-- Fuel-driven base-2 logarithm (`log2F fuel n = ⌊log₂ n⌋` whenever
`n < 2^fuel`); written with explicit fuel so that the kernel can reduce it. -/
def log2F : Nat → Nat → Nat
  | 0, _ => 0
  | fuel + 1, n => if n ≤ 1 then 0 else log2F fuel (n / 2) + 1

/-- Round the rational `a / b` (with `b > 0`) to the nearest integer,
ties to even. -/
def rne (a b : Nat) : Nat :=
  let n := a / b
  let r := a % b
  if 2 * r < b then n
  else if b < 2 * r then n + 1
  else if n % 2 = 0 then n else n + 1

/-- Binary exponent of `a / b`: the `e` with `2^e ≤ a/b < 2^(e+1)`,
valid for `2^-200 < a/b < 2^200`. -/
def dexp (a b : Nat) : Int :=
  (log2F 400 (a * 2 ^ 200 / b) : Int) - 200

/-- Round `a / b` to the nearest IEEE-754 binary64 value (round to
nearest, ties to even); the result is returned as an exact pair
(numerator, power-of-two denominator). -/
def roundD (a b : Nat) : Nat × Nat :=
  if a = 0 then (0, 1)
  else
    let e := dexp a b
    if 52 ≤ e then
      let g := (e - 52).toNat
      (rne a (b * 2 ^ g) * 2 ^ g, 1)
    else
      let s := (52 - e).toNat
      (rne (a * 2 ^ s) b, 2 ^ s)

/-- The source line `Math.floor(parentAmount * (percentage / 100))` in
`updateAllocation`, for a parent amount `A` and an integer percentage
`p`: first `p / 100` is rounded to a double, then the product with `A`
is rounded to a double, then the floor is taken (exact on doubles).
Validated against concrete JS/IEEE results (for example
`updAmount 100 29 = 28`, matching JS `100 * (29 / 100) = 28.999999999999996`). -/
def updAmount (A p : Nat) : Nat :=
  let md := roundD p 100
  let md2 := roundD (A * md.1) md.2
  md2.1 / md2.2

/-! ## Data model

`SkuData` and `Allocation` as used by the spreadsheet page.  JS object
lookup `sku.hierarchyValues[colName]` is an association-list lookup, and
the source's truthiness test `if (value)` treats the empty string like a
missing key.  Percentages are modelled as integers (the claims only
exercise integral percentages; the source stores a JS number). -/

structure Sku where
  skuCode : Str
  unitPrice : Nat
  hierarchyValues : List (Str × Str)
deriving DecidableEq, Repr

/-- JS `sku.hierarchyValues[colName]`. -/
def lookupVal (m : List (Str × Str)) (k : Str) : Option Str :=
  (m.find? (fun p => p.1 == k)).map (·.2)

/-- The source's `const value = sku.hierarchyValues[colName]; if (value) ...`:
a present but empty value is falsy, hence treated as absent. -/
def getVal (sku : Sku) (col : Str) : Option Str :=
  match lookupVal sku.hierarchyValues col with
  | none => none
  | some v => if v = [] then none else some v

/-- `buildHierarchyPath(sku, definitions, maxLevel)` from the spreadsheet
page: join the present (truthy) hierarchy values of the first `maxLevel`
definitions with `/`. -/
def buildHierarchyPath (sku : Sku) (defs : List Str) (maxLevel : Nat) : Str :=
  jsJoin ((defs.take maxLevel).filterMap (getVal sku))

structure Allocation where
  hierarchyPath : Str
  level : Nat
  percentage : Nat
  amount : Nat
  quantity : Nat
  period : Option Str
deriving DecidableEq, Repr

/-! ## Cascade engine (`getParentAmount`, `updateAllocation`) -/

/-- `getParentAmount(path, allocs)` from the spreadsheet page: depth-1
paths resolve to the session's total budget; otherwise the first
allocation whose `hierarchyPath` equals the parent path is used —
regardless of its `period` — and the total budget is the fallback. -/
def getParentAmount (totalBudget : Nat) (path : Str) (allocs : List Allocation) : Nat :=
  let parts := jsSplit path
  if parts.length = 1 then totalBudget
  else
    let parentPath := jsJoin parts.dropLast
    match allocs.find? (fun a => a.hierarchyPath == parentPath) with
    | some a => a.amount
    | none => totalBudget

/-- The related-SKU selection of `updateAllocation`: at SKU level
(`pathLevel = defs.length + 1`, where `pathLevel` is the number of
`/`-separated segments) SKUs are matched by code against the last path
segment, otherwise by their derived path at depth `pathLevel`. -/
def relatedSkus (skus : List Sku) (defs : List Str) (path : Str) : List Sku :=
  let pathLevel := (jsSplit path).length
  if pathLevel = defs.length + 1 then
    skus.filter (fun sku => sku.skuCode == lastSeg path)
  else
    skus.filter (fun sku => buildHierarchyPath sku defs pathLevel == path)

/-- `relatedSkus.reduce((sum, sku) => sum + sku.unitPrice, 0)`. -/
def totalUnitPriceOf (skus : List Sku) (defs : List Str) (path : Str) : Nat :=
  ((relatedSkus skus defs path).map (·.unitPrice)).sum

/-- `totalUnitPrice > 0 ? Math.floor(amount / totalUnitPrice) : 0`
(exact: for inputs below 2^53 the JS double division followed by
`Math.floor` coincides with integer floor division, since the quotient's
distance to the next integer above exceeds half an ulp). -/
def updQuantity (amount tot : Nat) : Nat :=
  if 0 < tot then amount / tot else 0

/-- Replace the element at one index, leaving every other element as is
(the JS `updated[existingIndex] = {...}` write on a copied array). -/
def modifyAt (f : α → α) : Nat → List α → List α
  | _, [] => []
  | 0, x :: xs => f x :: xs
  | n + 1, x :: xs => x :: modifyAt f n xs

/-- `updateAllocation(path, period, percentage)` from the spreadsheet
page, acting on the allocations list: compute parent amount, amount,
related-SKU unit-price sum and quantity, then overwrite the first entry
keyed by `(path, period)` or append a fresh entry with
`level = path.split('/').length`. -/
def updateAllocation (totalBudget : Nat) (defs : List Str) (skus : List Sku)
    (allocs : List Allocation) (path : Str) (period : Option Str)
    (percentage : Nat) : List Allocation :=
  let parentAmount := getParentAmount totalBudget path allocs
  let amount := updAmount parentAmount percentage
  let pathLevel := (jsSplit path).length
  let tot := totalUnitPriceOf skus defs path
  let quantity := updQuantity amount tot
  match allocs.findIdx? (fun a => a.hierarchyPath == path && a.period == period) with
  | some i =>
    modifyAt (fun old =>
      { old with percentage := percentage, amount := amount, quantity := quantity }) i allocs
  | none =>
    allocs ++ [{ hierarchyPath := path, level := pathLevel, percentage := percentage,
                 amount := amount, quantity := quantity, period := period }]

/-- Modelled from the spec: the parent-amount rule as the specification
states it — the parent allocation must belong to *the same period*; only
when no allocation at the parent path exists for that period does the
total budget apply.  (The source's `getParentAmount` ignores the period;
this definition exists to compare the two.) -/
def specParentAmount (totalBudget : Nat) (path : Str) (period : Option Str)
    (allocs : List Allocation) : Nat :=
  let parts := jsSplit path
  if parts.length = 1 then totalBudget
  else
    let parentPath := jsJoin parts.dropLast
    match allocs.find? (fun a => a.hierarchyPath == parentPath && a.period == period) with
    | some a => a.amount
    | none => totalBudget

/-- Modelled from the spec: the related SKUs of a node as the
specification states them — "all SKU records whose derived path at the
node's level equals this path", where the node's level is the `level`
field the Tree Builder stores on the node.  (The source instead uses the
segment count of the path and, at SKU level, matches by SKU code.) -/
def specRelatedSkus (skus : List Sku) (defs : List Str) (path : Str)
    (nodeLevel : Nat) : List Sku :=
  skus.filter (fun sku => buildHierarchyPath sku defs nodeLevel == path)

/-- Modelled from the spec: quantity computed from the spec's
related-SKU set at the node's stored level. -/
def specQuantity (skus : List Sku) (defs : List Str) (path : Str)
    (nodeLevel : Nat) (amount : Nat) : Nat :=
  let tot := ((specRelatedSkus skus defs path nodeLevel).map (·.unitPrice)).sum
  if 0 < tot then amount / tot else 0

/-! ## Tree builder (`buildHierarchyTree`)

The JS builder mutates a `Map<string, HierarchyNode>` and pushes child
references; the embedding keeps an association list from path to a node
entry whose `children` field stores child *paths* (in push order), plus
the list of root paths, and materialises `HierarchyNode` values at the
end.  This is exactly the information the mutable graph holds. -/

structure PeriodData where
  percentage : Nat
  amount : Nat
  quantity : Nat
deriving DecidableEq, Repr

structure NodeEntry where
  level : Nat
  name : Str
  unitPrice : Option Nat
  periodData : List (Option Str × PeriodData)
  children : List Str
deriving DecidableEq, Repr

structure BuildState where
  nodeMap : List (Str × NodeEntry)
  roots : List Str
deriving DecidableEq, Repr

/-- The source's `alloc.period || null`: an empty-string period is falsy
and collapses to `null`. -/
def normPeriod : Option Str → Option Str
  | some [] => none
  | p => p

/-- JS `Map.prototype.set`: overwrite in place if the key is present,
otherwise append. -/
def mapSetPD (m : List (Option Str × PeriodData)) (k : Option Str)
    (v : PeriodData) : List (Option Str × PeriodData) :=
  if (m.find? (fun e => e.1 == k)).isSome then
    m.map (fun e => if e.1 == k then (k, v) else e)
  else m ++ [(k, v)]

/-- The per-node `periodData` map: filter the allocations at this path
and `set` them one by one keyed by normalised period. -/
def buildPeriodData (allocs : List Allocation) (path : Str) :
    List (Option Str × PeriodData) :=
  (allocs.filter (fun a => a.hierarchyPath == path)).foldl
    (fun m a => mapSetPD m (normPeriod a.period) ⟨a.percentage, a.amount, a.quantity⟩) []

/-- `const parent = nodeMap.get(parentPath); if (parent) parent.children.push(node)`. -/
def attachChild (m : List (Str × NodeEntry)) (parent child : Str) :
    List (Str × NodeEntry) :=
  if (m.find? (fun e => e.1 == parent)).isSome then
    m.map (fun e =>
      if e.1 == parent then (e.1, { e.2 with children := e.2.children ++ [child] }) else e)
  else m

/-- One iteration of the inner `for (let level = 1; ...)` loop of
`buildHierarchyTree`: skip empty or already-seen paths, otherwise create
the node and either push it as a root (`level === 1`) or attach it under
`parts.slice(0, -1).join('/')` if that parent exists. -/
def insertLevelNode (allocs : List Allocation) (st : BuildState) (path : Str)
    (level : Nat) : BuildState :=
  if path = [] then st
  else if ((st.nodeMap.find? (fun e => e.1 == path)).isSome) then st
  else
    let parts := jsSplit path
    let entry : NodeEntry :=
      { level := level, name := parts.getLast?.getD [], unitPrice := none,
        periodData := buildPeriodData allocs path, children := [] }
    let m' := st.nodeMap ++ [(path, entry)]
    if level = 1 then
      { nodeMap := m', roots := st.roots ++ [path] }
    else
      { nodeMap := attachChild m' (jsJoin parts.dropLast) path, roots := st.roots }

/-- The SKU-leaf block of `buildHierarchyTree`: the parent key is
`buildHierarchyPath(sku, defs, defs.length)` and the SKU path appends the
SKU code with a `/` (or is the bare code when the parent path is empty);
the node is attached only if that parent key is present, and is never
pushed as a root. -/
def insertSkuNode (allocs : List Allocation) (defs : List Str) (st : BuildState)
    (sku : Sku) : BuildState :=
  let parentPath := buildHierarchyPath sku defs defs.length
  let skuPath := if parentPath = [] then sku.skuCode else parentPath ++ '/' :: sku.skuCode
  if ((st.nodeMap.find? (fun e => e.1 == skuPath)).isSome) then st
  else
    let entry : NodeEntry :=
      { level := defs.length + 1, name := sku.skuCode, unitPrice := some sku.unitPrice,
        periodData := buildPeriodData allocs skuPath, children := [] }
    { nodeMap := attachChild (st.nodeMap ++ [(skuPath, entry)]) parentPath skuPath,
      roots := st.roots }

/-- Processing of one SKU: all intermediate levels `1..defs.length`, then
the SKU leaf. -/
def processSku (allocs : List Allocation) (defs : List Str) (st : BuildState)
    (sku : Sku) : BuildState :=
  let st1 := (List.range' 1 defs.length).foldl
    (fun s level => insertLevelNode allocs s (buildHierarchyPath sku defs level) level) st
  insertSkuNode allocs defs st1 sku

/-- The whole graph-building phase of `buildHierarchyTree`. -/
def buildState (allocs : List Allocation) (defs : List Str)
    (skus : List Sku) : BuildState :=
  skus.foldl (processSku allocs defs) ⟨[], []⟩

/-- Children (as paths) recorded for a key; `[]` for unknown keys. -/
def childrenOf (m : List (Str × NodeEntry)) (k : Str) : List Str :=
  match m.find? (fun e => e.1 == k) with
  | some e => e.2.children
  | none => []

structure HierarchyNode where
  path : Str
  name : Str
  level : Nat
  unitPrice : Option Nat
  periodData : List (Option Str × PeriodData)
  children : List HierarchyNode
deriving Repr

/-- Materialise the node objects reachable from a list of keys; `fuel`
bounds the depth (any fuel at least the maximum level is exact, and the
theorems below hold for every fuel). -/
def materializeList (m : List (Str × NodeEntry)) : Nat → List Str → List HierarchyNode
  | 0, _ => []
  | f + 1, ks =>
    ks.map (fun k =>
      match m.find? (fun e => e.1 == k) with
      | some e =>
        { path := k, name := e.2.name, level := e.2.level, unitPrice := e.2.unitPrice,
          periodData := e.2.periodData,
          children := materializeList m f e.2.children }
      | none =>
        { path := k, name := [], level := 0, unitPrice := none, periodData := [],
          children := [] })

/-- `buildHierarchyTree()`: empty when there is no SKU data, otherwise
the forest of nodes reachable from the recorded roots. -/
def buildHierarchyTree (allocs : List Allocation) (defs : List Str)
    (skus : List Sku) : List HierarchyNode :=
  if skus = [] then []
  else
    let st := buildState allocs defs skus
    materializeList st.nodeMap (defs.length + 2) st.roots

/-- All nodes of a forest (each node together with all its descendants). -/
def allNodes : List HierarchyNode → List HierarchyNode
  | [] => []
  | n :: ns => n :: (allNodes n.children ++ allNodes ns)
termination_by l => sizeOf l
decreasing_by
  · cases n
    simp
    omega
  · simp

/-- The multiset of paths emitted by materialisation, computed directly
on the key graph. -/
def emitPaths (m : List (Str × NodeEntry)) : Nat → List Str → List Str
  | 0, _ => []
  | f + 1, ks => (ks.map (fun k => k :: emitPaths m f (childrenOf m k))).flatten

/-- Keys of the node map, in insertion order. -/
def keysOf (st : BuildState) : List Str := st.nodeMap.map (·.1)

/-! ## Period creation (`POST /api/sessions/[id]/periods`, first generation)

The placeholder-seeding block of the handler: hierarchy paths are
collected into a `Set` (insertion-ordered, deduplicating), but a path is
added only when the SKU has a value at *every* level up to the path's
depth (`pathParts.length === level`), and only for levels
`1..hierarchyDefinitions.length` — never for SKU-leaf paths. -/

/-- Insertion-ordered set insertion (JS `Set.prototype.add`). -/
def pushNew [DecidableEq α] (acc : List α) (x : α) : List α :=
  if x ∈ acc then acc else acc ++ [x]

/-- One candidate path of the seeding loop: the joined values of levels
`1..level`, provided every one of those levels has a (truthy) value. -/
def completePath (sku : Sku) (defs : List Str) (level : Nat) : Option Str :=
  let parts := (defs.take level).filterMap (getVal sku)
  if parts.length = level then some (jsJoin parts) else none

/-- The `hierarchyPaths` set of the POST handler, in insertion order. -/
def seedPaths (skus : List Sku) (defs : List Str) : List Str :=
  skus.foldl
    (fun acc sku =>
      (List.range' 1 defs.length).foldl
        (fun acc' level =>
          match completePath sku defs level with
          | some p => pushNew acc' p
          | none => acc')
        acc)
    []

/-- `childrenCount: Map<string, Set<string>>` — add one child path under
its parent key. -/
def addChildSet (m : List (Str × List Str)) (parent child : Str) :
    List (Str × List Str) :=
  if (m.find? (fun e => e.1 == parent)).isSome then
    m.map (fun e => if e.1 == parent then (e.1, pushNew e.2 child) else e)
  else m ++ [(parent, [child])]

/-- One step of building `childrenCount`: register a deeper-than-root
path under its parent key. -/
def childStep (m : List (Str × List Str)) (path : Str) : List (Str × List Str) :=
  let parts := jsSplit path
  if 1 < parts.length then addChildSet m (jsJoin parts.dropLast) path else m

/-- The `childrenCount` map of the POST handler. -/
def childSets (paths : List Str) : List (Str × List Str) :=
  paths.foldl childStep []

/-- The percentage assigned to one seeded path: 100 iff it is the sole
child of its parent (or the sole depth-1 path). -/
def seedPct (paths : List Str) (path : Str) : Nat :=
  let parts := jsSplit path
  if 1 < parts.length then
    match (childSets paths).find? (fun e => e.1 == jsJoin parts.dropLast) with
    | some e => if e.2.length = 1 then 100 else 0
    | none => 0
  else
    if (paths.filter (fun p => (jsSplit p).length == 1)).length = 1 then 100 else 0

/-- The placeholder allocation rows created by the POST handler when no
copy source is usable. -/
def placeholderAllocations (skus : List Sku) (defs : List Str)
    (period : Str) : List Allocation :=
  (seedPaths skus defs).map (fun path =>
    { hierarchyPath := path, level := (jsSplit path).length,
      percentage := seedPct (seedPaths skus defs) path,
      amount := 0, quantity := 0, period := some period })

/-! ## Period routes, first generation (periods derived from allocations) -/

inductive ApiResult where
  | success (copied : Nat)
  | conflict
  | notFound
  | badRequest
deriving DecidableEq, Repr

/-- `POST /api/sessions/[id]/periods` (allocation-derived generation):
validation, the duplicate-period check against allocation rows, the
copy-from branch, and the placeholder-seeding fallback.  The period name
is taken post-`trim()`. -/
def postPeriod1 (allocs : List Allocation) (skus : List Sku) (defs : List Str)
    (pName : Str) (copyFrom : Option Str) : ApiResult × List Allocation :=
  if pName = [] then (.badRequest, allocs)
  else if ((allocs.find? (fun a => a.period == some pName)).isSome) then
    (.conflict, allocs)
  else
    let seeded :=
      if skus ≠ [] ∧ defs ≠ [] then
        allocs ++ placeholderAllocations skus defs pName
      else allocs
    match copyFrom with
    | some cf =>
      if cf ≠ [] then
        let source := allocs.filter (fun a => a.period == some cf)
        if 0 < source.length then
          (.success source.length,
           allocs ++ source.map (fun a => { a with period := some pName }))
        else (.success 0, seeded)
      else (.success 0, seeded)
    | none => (.success 0, seeded)

/-- Byte-wise string order, standing in for `localeCompare` (membership
in the sorted list — all the claims use — is order-independent). -/
def strLe (a b : Str) : Bool := a.map Char.toNat ≤ b.map Char.toNat

/-- The period comparator of the GET handler: `null` first, then
ascending names. -/
def periodLe (a b : Option Str) : Bool :=
  match a, b with
  | none, _ => true
  | some _, none => false
  | some x, some y => strLe x y

/-- Insertion sort (a stable comparison sort, standing in for JS
`Array.prototype.sort`). -/
def insertSorted (le : α → α → Bool) (x : α) : List α → List α
  | [] => [x]
  | y :: ys => if le x y then x :: y :: ys else y :: insertSorted le x ys

def insertionSort (le : α → α → Bool) : List α → List α
  | [] => []
  | x :: xs => insertSorted le x (insertionSort le xs)

/-- `GET /api/sessions/[id]/periods` (allocation-derived generation):
the distinct `period` values of the session's allocation rows, default
first, then sorted. -/
def listPeriods1 (allocs : List Allocation) : List (Option Str) :=
  insertionSort periodLe ((allocs.map (·.period)).foldl pushNew [])

/-! ## CSV export (`exportToCSV`), cumulative-percentage cell

For one SKU row and one period the handler walks the levels
`1..skuPath.split('/').length`, multiplying in `percentage / 100` for
every level that has an allocation with positive percentage *and
skipping levels that lack one*; only when no level at all contributed
(detected at the last level via `hasAllocation`) is the cumulative set
to 0 and the cell left blank.  The multiplication is modelled exactly
(numerator, power-of-100 denominator); `toFixed(4)` is modelled as
round-half-up to four decimals. -/

/-- Decimal digits of a natural number (fuel-driven, most significant
first). -/
def natDigitsF : Nat → Nat → Str
  | 0, _ => []
  | fuel + 1, n =>
    if n < 10 then [Char.ofNat (48 + n)]
    else natDigitsF fuel (n / 10) ++ [Char.ofNat (48 + n % 10)]

def natDigits (n : Nat) : Str := natDigitsF 40 n

/-- JS `x.toFixed(4)` for the exact non-negative rational `num / den`:
round half-up to four decimal places and print with exactly four
fractional digits. -/
def toFixed4 (num den : Nat) : Str :=
  let scaled := (2 * num * 10 ^ 4 + den) / (2 * den)
  let ip := scaled / 10 ^ 4
  let fp := scaled % 10 ^ 4
  let fd := natDigits fp
  natDigits ip ++ '.' :: (List.replicate (4 - fd.length) '0' ++ fd)

/-- The positive percentage contributed at one level of the export walk,
if any: the first allocation of the period at the level's path, provided
its percentage is positive. -/
def posPctAt (pa : List Allocation) (parts : List Str) (level : Nat) : Option Nat :=
  match pa.find? (fun a => a.hierarchyPath == jsJoin (parts.take level)) with
  | some a => if 0 < a.percentage then some a.percentage else none
  | none => none

/-- One step of the level loop: state is (numerator, denominator,
`hasAllocation`).  A level with a positive-percentage allocation
multiplies it in; otherwise the state is unchanged, except that the last
level zeroes the numerator when nothing has contributed yet (the
source's `cumulativePercentage = 0; break`, which can only fire on the
final iteration). -/
def cellStep (pa : List Allocation) (parts : List Str) (n : Nat)
    (st : Nat × Nat × Bool) (level : Nat) : Nat × Nat × Bool :=
  match posPctAt pa parts level with
  | some p => (st.1 * p, st.2.1 * 100, true)
  | none => if level = n ∧ st.2.2 = false then (0, st.2.1, st.2.2) else st

/-- The cumulative-percentage cell of `exportToCSV` for one SKU path and
one period: empty when nothing contributed, otherwise the product
(as a percentage) printed with `toFixed(4)`. -/
def exportPeriodCell (allocs : List Allocation) (period : Option Str)
    (skuPath : Str) : Str :=
  let pa := allocs.filter (fun a => a.period == period)
  let parts := jsSplit skuPath
  let n := parts.length
  let st := (List.range' 1 n).foldl (cellStep pa parts n) (1, 1, false)
  if 0 < st.1 ∧ st.2.2 = true then toFixed4 (st.1 * 100) st.2.1 else []

/-- Modelled from the spec: the cell as the specification states it —
the product of the percentages at *every* level from the root down to
the SKU's path, and blank as soon as any level lacks an allocation for
the period or has percentage 0. -/
def specExportCell (allocs : List Allocation) (period : Option Str)
    (skuPath : Str) : Str :=
  let pa := allocs.filter (fun a => a.period == period)
  let parts := jsSplit skuPath
  let n := parts.length
  let pcts := (List.range' 1 n).map (fun level =>
    match pa.find? (fun a => a.hierarchyPath == jsJoin (parts.take level)) with
    | some a => a.percentage
    | none => 0)
  if pcts.all (fun p => 0 < p) then toFixed4 (pcts.prod * 100) (100 ^ n) else []

/-! ## Period rename (`PUT /api/sessions/[id]/periods/[period]`)

Two generations coexist in the source: the allocation-only handler
(rewrites the `period` field with `updateMany`, existence and conflict
checks against allocation rows) and the period-budget handler (checks
against the `period_budgets` table and rewrites budget row plus
allocation rows inside one `$transaction`). -/

inductive RenameOutcome where
  | ok (updated : Nat)
  | badRequest
  | notFound
  | conflict
deriving DecidableEq, Repr

/-- Number of allocation rows carrying a given period key. -/
def countPeriod (allocs : List Allocation) (p : Option Str) : Nat :=
  (allocs.filter (fun a => a.period == p)).length

/-- First-generation rename: reject when the old period has no rows or
the new name already appears on some row; otherwise rewrite every
matching row's `period` field. -/
def renamePeriod1 (allocs : List Allocation) (old : Option Str) (newP : Str) :
    RenameOutcome × List Allocation :=
  if newP = [] then (.badRequest, allocs)
  else
    let olds := allocs.filter (fun a => a.period == old)
    if olds.length = 0 then (.notFound, allocs)
    else if ((allocs.find? (fun a => a.period == some newP)).isSome) then
      (.conflict, allocs)
    else
      (.ok olds.length,
       allocs.map (fun a => if a.period == old then { a with period := some newP } else a))

/-- The persistent state of the period-budget generation: the
`period_budgets` rows (period key, budget) and the allocation rows of
one session. -/
structure DB2 where
  budgets : List (Option Str × Nat)
  allocations : List Allocation
deriving DecidableEq, Repr

/-- Second-generation rename: existence and conflict checks against
`period_budgets`; on success the budget row is deleted and re-created
under the new key and every allocation row with the old period is
rewritten, inside one transaction. -/
def renamePeriod2 (db : DB2) (old : Option Str) (newP : Str) :
    RenameOutcome × DB2 :=
  if newP = [] then (.badRequest, db)
  else
    match db.budgets.find? (fun b => b.1 == old) with
    | none => (.notFound, db)
    | some oldB =>
      if ((db.budgets.find? (fun b => b.1 == some newP)).isSome) then (.conflict, db)
      else
        let updated := countPeriod db.allocations old
        (.ok updated,
         { budgets := (db.budgets.filter (fun b => !(b.1 == old))) ++ [(some newP, oldB.2)],
           allocations := db.allocations.map (fun a =>
             if a.period == old then { a with period := some newP } else a) })

/-! ## Transactionality model (claim about all-or-nothing execution)

Each route handler is a sequence of *units*; statements wrapped in one
`prisma.$transaction` form a single unit, every bare `await prisma....`
call is its own unit.  A unit is atomic: a failure inside it rolls it
back; units that completed before the failure stay committed.  A
handler leaves no partial write exactly when the state after a failure
in any unit equals the initial state. -/

inductive DbOp where
  | delAllocsAll
  | insAllocs (rows : List Allocation)
  | delBudget (p : Option Str)
  | insBudget (p : Option Str) (b : Nat)
  | updAllocPeriod (old newP : Option Str)
  | delAllocsPeriod (p : Option Str)
deriving DecidableEq, Repr

def applyOp (db : DB2) : DbOp → DB2
  | .delAllocsAll => { db with allocations := [] }
  | .insAllocs rows => { db with allocations := db.allocations ++ rows }
  | .delBudget p => { db with budgets := db.budgets.filter (fun b => !(b.1 == p)) }
  | .insBudget p b => { db with budgets := db.budgets ++ [(p, b)] }
  | .updAllocPeriod old newP =>
    { db with allocations := db.allocations.map (fun a =>
        if a.period == old then { a with period := newP } else a) }
  | .delAllocsPeriod p =>
    { db with allocations := db.allocations.filter (fun a => !(a.period == p)) }

def runUnit (db : DB2) (u : List DbOp) : DB2 := u.foldl applyOp db

def runUnits (db : DB2) (units : List (List DbOp)) : DB2 := units.foldl runUnit db

/-- The state after the units preceding a failure in unit `k` (the
failing unit itself rolls back, later units never run). -/
def runFailAt (db : DB2) (units : List (List DbOp)) (k : Nat) : DB2 :=
  runUnits db (units.take k)

/-- `PUT /api/sessions/[id]/allocations`: `deleteMany` and `createMany`
are two separate awaited calls with no surrounding transaction. -/
def putAllocationsProgram (rows : List Allocation) : List (List DbOp) :=
  [[.delAllocsAll], [.insAllocs rows]]

/-- `PUT /api/sessions/[id]/periods/[period]` (budget generation): one
`$transaction` containing delete + create of the budget row and the
allocation `updateMany`. -/
def renamePeriodProgram (old : Option Str) (newP : Str) (b : Nat) : List (List DbOp) :=
  [[.delBudget old, .insBudget (some newP) b, .updAllocPeriod old (some newP)]]

/-- `DELETE /api/sessions/[id]/periods/[period]` (budget generation):
the budget-row delete and the allocation `deleteMany` are two separate
awaited calls with no surrounding transaction. -/
def deletePeriodProgram (p : Option Str) : List (List DbOp) :=
  [[.delBudget p], [.delAllocsPeriod p]]

/-- A program leaves no partial write when a failure at any unit leaves
the database exactly as it started. -/
def NoPartialWrite (units : List (List DbOp)) : Prop :=
  ∀ db k, k < units.length → runFailAt db units k = db

/-- The sole-child condition of the seeding logic, written declaratively:
a deeper-than-root path is the only seeded path sharing its parent, or a
root path is the only seeded root path. -/
def soleChildCond (paths : List Str) (p : Str) : Prop :=
  (1 < (jsSplit p).length ∧
    (paths.filter (fun q =>
      decide (1 < (jsSplit q).length) && (dropLastSeg q == dropLastSeg p))).length = 1) ∨
  ((jsSplit p).length = 1 ∧
    (paths.filter (fun q => (jsSplit q).length == 1)).length = 1)

instance (paths : List Str) (p : Str) : Decidable (soleChildCond paths p) := by
  unfold soleChildCond; infer_instance


/-! ## Concrete inputs used by the witnesses and counterexamples -/

/-- Three hierarchy columns. -/
def defsThree : List Str := [str ("c1"), str ("c2"), str ("c3")]

/-- A SKU with a value at levels 1 and 3 but none at level 2 (the Tree
Builder skips the gap, so its level-3 node `A/C` has only two path
segments). -/
def skuGap : Sku := ⟨str ("S1"), 100, [(str ("c1"), str ("A")), (str ("c3"), str ("C"))]⟩

/-- A persisted allocation at root path `A` with amount 1000. -/
def allocRootA : Allocation := ⟨str ("A"), 1, 100, 1000, 0, none⟩

/-- A SKU whose code contains the path separator. -/
def skuSlash : Sku := ⟨str ("S/1"), 100, [(str ("c"), str ("A"))]⟩

/-- A one-column, one-SKU data set. -/
def skuPlain : Sku := ⟨str ("S1"), 100, [(str ("cat"), str ("A"))]⟩

/-- An allocation at path `A` for period `Q2` with amount 5. -/
def allocQ2 : Allocation := ⟨str ("A"), 1, 50, 5, 0, some (str ("Q2"))⟩

/-- An allocation at path `A` for period `Q1` at 50 %. -/
def alloc50Q1 : Allocation := ⟨str ("A"), 1, 50, 500, 0, some (str ("Q1"))⟩

/-- A two-row, one-budget database state. -/
def dbDemo : DB2 :=
  ⟨[(some (str ("Q1")), 777)],
   [alloc50Q1, ⟨str ("B"), 1, 50, 500, 0, some (str ("Q1"))⟩]⟩



/-- The rewritten entry `{...old, percentage, amount, quantity}` that
`updateAllocation` stores at the found index. -/
def updatedRow (budget : Nat) (defs : List Str) (skus : List Sku)
    (allocs : List Allocation) (path : Str) (pct : Nat) (old : Allocation) : Allocation :=
  { old with
    percentage := pct
    amount := updAmount (getParentAmount budget path allocs) pct
    quantity := updQuantity (updAmount (getParentAmount budget path allocs) pct)
      (totalUnitPriceOf skus defs path) }

/-- The fresh entry `updateAllocation` appends when no entry is keyed by
`(path, period)`. -/
def freshRow (budget : Nat) (defs : List Str) (skus : List Sku)
    (allocs : List Allocation) (path : Str) (period : Option Str) (pct : Nat) : Allocation :=
  { hierarchyPath := path
    level := (jsSplit path).length
    percentage := pct
    amount := updAmount (getParentAmount budget path allocs) pct
    quantity := updQuantity (updAmount (getParentAmount budget path allocs) pct)
      (totalUnitPriceOf skus defs path)
    period := period }

/-- The recorded set of children of one parent key in the
`childrenCount` map (empty when the key is absent). -/
def childListOf (m : List (Str × List Str)) (k : Str) : List Str :=
  match m.find? (fun e => e.1 == k) with
  | some e => e.2
  | none => []


/-- Invariants maintained by the Tree Builder's graph-building phase:
keys are unique; every path has total in-degree at most one (as a root
plus across all children lists); roots and children are registered
keys; and every child key was inserted strictly after its parent key. -/
structure BuildInv (st : BuildState) : Prop where
  keysNodup : (keysOf st).Nodup
  cnt1 : ∀ q : Str, List.count q st.roots +
    ((st.nodeMap.map (fun e => List.count q e.2.children)).sum) ≤ 1
  rootsKeys : ∀ r ∈ st.roots, r ∈ keysOf st
  childKeys : ∀ e ∈ st.nodeMap, ∀ c ∈ e.2.children, c ∈ keysOf st
  childRank : ∀ e ∈ st.nodeMap, ∀ c ∈ e.2.children,
    List.indexOf e.1 (keysOf st) < List.indexOf c (keysOf st)

/-- Every recorded child's path is its parent's key extended by one
final segment (holds unconditionally for intermediate attachments, and
for SKU attachments whose code is separator-free). -/
def ChildrenDropLast (st : BuildState) : Prop :=
  ∀ e ∈ st.nodeMap, ∀ c ∈ e.2.children, dropLastSeg c = e.1

/-! # Theorems -/

/-! ## String lemmas -/

theorem jsSplit_ne_nil (s : Str) : jsSplit s ≠ [] := by
  cases s with
  | nil => simp [jsSplit]
  | cons c rest =>
    simp only [jsSplit]
    split
    · simp
    · split <;> simp

theorem jsSplit_cons_sep (rest : Str) : jsSplit ('/' :: rest) = [] :: jsSplit rest := by
  simp [jsSplit]

theorem jsSplit_cons_ne (c : Char) (rest : Str) (h : c ≠ '/') {x : Str} {xs : List Str}
    (hx : jsSplit rest = x :: xs) : jsSplit (c :: rest) = (c :: x) :: xs := by
  simp [jsSplit, h, hx]

theorem jsSplit_append (a b : Str) :
    jsSplit (a ++ '/' :: b) = jsSplit a ++ jsSplit b := by
  induction a with
  | nil => simp [jsSplit]
  | cons c rest ih =>
    by_cases hc : c = '/'
    · subst hc
      rw [List.cons_append, jsSplit_cons_sep, jsSplit_cons_sep, ih, List.cons_append]
    · obtain ⟨x, xs, hx⟩ := List.exists_cons_of_ne_nil (jsSplit_ne_nil rest)
      have hx2 : jsSplit (rest ++ '/' :: b) = x :: (xs ++ jsSplit b) := by
        rw [ih, hx, List.cons_append]
      rw [List.cons_append, jsSplit_cons_ne c _ hc hx2, jsSplit_cons_ne c _ hc hx,
        List.cons_append]

theorem jsSplit_no_sep (s : Str) (h : ('/' : Char) ∉ s) : jsSplit s = [s] := by
  induction s with
  | nil => simp [jsSplit]
  | cons c rest ih =>
    have hc : c ≠ '/' := fun hx => h (hx ▸ List.mem_cons_self c rest)
    have hr : ('/' : Char) ∉ rest := fun hx => h (List.mem_cons_of_mem c hx)
    exact jsSplit_cons_ne c rest hc (ih hr)

theorem jsJoin_cons_of_ne_nil (x : Str) (L : List Str) (h : L ≠ []) :
    jsJoin (x :: L) = x ++ '/' :: jsJoin L := by
  cases L with
  | nil => exact absurd rfl h
  | cons y ys => rfl

theorem jsJoin_jsSplit (s : Str) : jsJoin (jsSplit s) = s := by
  induction s with
  | nil => simp [jsSplit, jsJoin]
  | cons c rest ih =>
    by_cases hc : c = '/'
    · subst hc
      rw [jsSplit_cons_sep, jsJoin_cons_of_ne_nil _ _ (jsSplit_ne_nil rest), ih]
      rfl
    · obtain ⟨x, xs, hx⟩ := List.exists_cons_of_ne_nil (jsSplit_ne_nil rest)
      rw [jsSplit_cons_ne c rest hc hx]
      cases xs with
      | nil =>
        have : jsJoin [x] = rest := by rw [← hx, ih]
        simp only [jsJoin] at this ⊢
        simp [this]
      | cons z zs =>
        have hrest : x ++ '/' :: jsJoin (z :: zs) = rest := by
          have : jsJoin (x :: z :: zs) = rest := by rw [← hx, ih]
          simpa [jsJoin_cons_of_ne_nil x (z :: zs) (by simp)] using this
        calc jsJoin ((c :: x) :: z :: zs)
            = (c :: x) ++ '/' :: jsJoin (z :: zs) :=
              jsJoin_cons_of_ne_nil _ _ (by simp)
          _ = c :: (x ++ '/' :: jsJoin (z :: zs)) := rfl
          _ = c :: rest := by rw [hrest]

theorem jsSplit_jsJoin_no_sep (xs : List Str) (hne : xs ≠ [])
    (h : ∀ x ∈ xs, ('/' : Char) ∉ x) : jsSplit (jsJoin xs) = xs := by
  induction xs with
  | nil => exact absurd rfl hne
  | cons x ys ih =>
    cases ys with
    | nil =>
      simp only [jsJoin]
      exact jsSplit_no_sep x (h x (List.mem_cons_self x []))
    | cons y zs =>
      rw [jsJoin_cons_of_ne_nil x (y :: zs) (by simp),
        jsSplit_append, jsSplit_no_sep x (h x (List.mem_cons_self _ _)),
        ih (by simp) (fun z hz => h z (List.mem_cons_of_mem x hz))]
      rfl

theorem dropLastSeg_append (p c : Str) (hc : ('/' : Char) ∉ c) :
    dropLastSeg (p ++ '/' :: c) = p := by
  unfold dropLastSeg
  rw [jsSplit_append, jsSplit_no_sep c hc, List.dropLast_concat, jsJoin_jsSplit]

/-! ## Float-model lemmas and claim C1 -/

theorem log2F_spec : ∀ (fuel n : Nat), 0 < n → n < 2 ^ fuel →
    2 ^ log2F fuel n ≤ n ∧ n < 2 ^ (log2F fuel n + 1) := by
  intro fuel
  induction fuel with
  | zero => intro n h1 h2; simp at h2; omega
  | succ fuel ih =>
    intro n h1 h2
    simp only [log2F]
    split
    · next h =>
      have hn : n = 1 := by omega
      subst hn
      norm_num
    · next h =>
      have hgt : 1 < n := by omega
      have hp : (2 : Nat) ^ (fuel + 1) = 2 ^ fuel * 2 := pow_succ 2 fuel
      have h2' : n / 2 < 2 ^ fuel := by omega
      have h1' : 0 < n / 2 := by omega
      obtain ⟨ihl, ihr⟩ := ih (n / 2) h1' h2'
      have e1 : (2 : Nat) ^ (log2F fuel (n / 2) + 1) = 2 ^ log2F fuel (n / 2) * 2 :=
        pow_succ 2 _
      have e2 : (2 : Nat) ^ (log2F fuel (n / 2) + 1 + 1) = 2 ^ (log2F fuel (n / 2) + 1) * 2 :=
        pow_succ 2 _
      exact ⟨by omega, by omega⟩

theorem rne_exact (a b : Nat) (hb : 0 < b) (h : b ∣ a) : rne a b = a / b := by
  have hm : a % b = 0 := Nat.mod_eq_zero_of_dvd h
  unfold rne
  simp [hm, hb]

theorem roundD_100_100 : roundD 100 100 = (2 ^ 52, 2 ^ 52) := by decide

theorem updAmount_zero (A : Nat) : updAmount A 0 = 0 := by
  simp [updAmount, roundD]

theorem roundD_mul_pow52 (A : Nat) (hpos : 0 < A) (hA : A < 2 ^ 53) :
    (roundD (A * 2 ^ 52) (2 ^ 52)).1 / (roundD (A * 2 ^ 52) (2 ^ 52)).2 = A := by
  have hne : A * 2 ^ 52 ≠ 0 := Nat.mul_ne_zero (by omega) (by norm_num)
  have hdvd : (2 : Nat) ^ 52 ∣ A * 2 ^ 52 := dvd_mul_left _ _
  have harg : A * 2 ^ 52 * 2 ^ 200 / 2 ^ 52 = A * 2 ^ 200 := by
    rw [show A * 2 ^ 52 * 2 ^ 200 = A * 2 ^ 200 * 2 ^ 52 by ring]
    exact Nat.mul_div_cancel _ (by norm_num)
  have hdexp : dexp (A * 2 ^ 52) (2 ^ 52) = (log2F 400 (A * 2 ^ 200) : Int) - 200 := by
    unfold dexp
    rw [harg]
  set L := log2F 400 (A * 2 ^ 200) with hL
  obtain ⟨hl, hr⟩ := log2F_spec 400 (A * 2 ^ 200) (mul_pos hpos (by norm_num))
    (by
      have h1 : A * 2 ^ 200 < 2 ^ 53 * 2 ^ 200 :=
        mul_lt_mul_of_pos_right hA (by norm_num)
      have h2 : (2 : Nat) ^ 53 * 2 ^ 200 = 2 ^ 253 := by
        rw [← pow_add]
      have h3 : (2 : Nat) ^ 253 ≤ 2 ^ 400 := Nat.pow_le_pow_right (by norm_num) (by norm_num)
      omega)
  rw [← hL] at hl hr
  have hL200 : 200 ≤ L := by
    by_contra hcon
    push_neg at hcon
    have hle : (2 : Nat) ^ (L + 1) ≤ 2 ^ 200 := Nat.pow_le_pow_right (by norm_num) (by omega)
    have h200 : (2 : Nat) ^ 200 ≤ A * 2 ^ 200 := Nat.le_mul_of_pos_left _ hpos
    omega
  have hL252 : L ≤ 252 := by
    by_contra hcon
    push_neg at hcon
    have h1 : (2 : Nat) ^ 253 ≤ 2 ^ L := Nat.pow_le_pow_right (by norm_num) (by omega)
    have h2 : A * 2 ^ 200 < 2 ^ 53 * 2 ^ 200 :=
      mul_lt_mul_of_pos_right hA (by norm_num)
    have h3 : (2 : Nat) ^ 53 * 2 ^ 200 = 2 ^ 253 := by rw [← pow_add]
    omega
  by_cases hc : 252 ≤ L
  · have hkey : roundD (A * 2 ^ 52) (2 ^ 52) = (A, 1) := by
      simp only [roundD, hdexp]
      rw [if_neg hne, if_pos (by omega : (52 : Int) ≤ (L : Int) - 200)]
      have hg : ((L : Int) - 200 - 52).toNat = 0 := by omega
      rw [hg]
      rw [pow_zero, mul_one, mul_one, rne_exact _ _ (by norm_num) hdvd,
        Nat.mul_div_cancel _ (by norm_num)]
    rw [hkey]
    simp
  · push_neg at hc
    have hkey : roundD (A * 2 ^ 52) (2 ^ 52) = (A * 2 ^ (252 - L), 2 ^ (252 - L)) := by
      simp only [roundD, hdexp]
      rw [if_neg hne, if_neg (by omega : ¬ (52 : Int) ≤ (L : Int) - 200)]
      have hs : ((52 : Int) - ((L : Int) - 200)).toNat = 252 - L := by omega
      rw [hs]
      have hdvd2 : (2 : Nat) ^ 52 ∣ A * 2 ^ 52 * 2 ^ (252 - L) := Dvd.dvd.mul_right hdvd _
      rw [rne_exact _ _ (by norm_num) hdvd2]
      have he : A * 2 ^ 52 * 2 ^ (252 - L) / 2 ^ 52 = A * 2 ^ (252 - L) := by
        rw [show A * 2 ^ 52 * 2 ^ (252 - L) = A * 2 ^ (252 - L) * 2 ^ 52 by ring]
        exact Nat.mul_div_cancel _ (by norm_num)
      rw [he]
    rw [hkey]
    exact Nat.mul_div_cancel _ (by norm_num)

theorem updAmount_hundred (A : Nat) (hA : A < 2 ^ 53) : updAmount A 100 = A := by
  rcases Nat.eq_zero_or_pos A with hz | hpos
  · subst hz
    decide
  · show (roundD (A * (roundD 100 100).1) (roundD 100 100).2).1 /
      (roundD (A * (roundD 100 100).1) (roundD 100 100).2).2 = A
    rw [roundD_100_100]
    exact roundD_mul_pow52 A hpos hA

/-- Claim C1 (corrected), counterexample: entering 29 % for a depth-1
node with total budget 100 stores amount 28, not
`floor(100 × 29 / 100) = 29` — the JS evaluation
`Math.floor(100 * (29 / 100))` rounds `29 / 100` and then the product to
binary64 (`100 * 0.29 = 28.999999999999996` in JS). -/
theorem claim1_counterexample :
    (updateAllocation 100 [] [] [] (str ("A")) none 29).map (·.amount) = [28] ∧
    (28 : Nat) ≠ 100 * 29 / 100 := by
  constructor
  · decide
  · decide

/-- Claim C1 (corrected, amended): the amount stored by
`updateAllocation` is the floor of the binary64 evaluation
`A ⊗ (p ⊘ 100)` (modelled by `updAmount`), which for the claim's two
named special cases is exact: percentage 0 always yields amount 0, and
percentage 100 yields exactly the parent amount `A` for every
representable `A < 2^53`.  For intermediate percentages the result can
fall below `floor(A × p / 100)` (see the counterexample). -/
theorem claim1_amended (A : Nat) (hA : A < 2 ^ 53) :
    updAmount A 0 = 0 ∧ updAmount A 100 = A :=
  ⟨updAmount_zero A, updAmount_hundred A hA⟩

theorem claim1_witness : updAmount 12345 0 = 0 ∧ updAmount 12345 100 = 12345 :=
  claim1_amended 12345 (by norm_num)

/-! ## Claim C2: parent-amount resolution -/

theorem getParentAmount_eq (budget : Nat) (path : Str) (allocs : List Allocation) :
    getParentAmount budget path allocs =
      if (jsSplit path).length = 1 then budget
      else
        match allocs.find? (fun a => a.hierarchyPath == dropLastSeg path) with
        | some a => a.amount
        | none => budget := rfl

theorem find?_map_period (P : Str) (f : Option Str → Option Str)
    (allocs : List Allocation) :
    ((allocs.map (fun a => { a with period := f a.period })).find?
      (fun x => x.hierarchyPath == P)) =
    (allocs.find? (fun x => x.hierarchyPath == P)).map
      (fun a => { a with period := f a.period }) := by
  induction allocs with
  | nil => rfl
  | cons a as ih =>
    simp only [List.map_cons, List.find?_cons]
    by_cases h : (a.hierarchyPath == P)
    · simp [h]
    · simp only [h]
      simpa [h] using ih

/-- Claim C2 (corrected), counterexample: resolving the parent of
`A/B` for period `Q1` when the only allocation at path `A` belongs to
period `Q2` — the specification's rule returns the total budget 1000
(no parent allocation *for that period*), but `getParentAmount` ignores
the period and returns that allocation's amount 5. -/
theorem claim2_counterexample :
    getParentAmount 1000 (str ("A/B")) [allocQ2] = 5 ∧
    specParentAmount 1000 (str ("A/B")) (some (str ("Q1"))) [allocQ2] = 1000 ∧
    (5 : Nat) ≠ 1000 := by
  refine ⟨by decide, by decide, by decide⟩

/-- Claim C2 (corrected, amended): the parent amount is the period's
total budget at depth 1; otherwise it is the amount of the *first*
allocation in the list whose path equals the parent path, irrespective
of that allocation's period (the lookup is invariant under arbitrary
rewrites of every period field), and the total budget is used only when
no allocation at the parent path exists at all. -/
theorem claim2_amended (budget : Nat) (path : Str) (allocs : List Allocation) :
    ((jsSplit path).length = 1 → getParentAmount budget path allocs = budget) ∧
    ((∀ a ∈ allocs, a.hierarchyPath ≠ dropLastSeg path) →
      getParentAmount budget path allocs = budget) ∧
    (∀ f : Option Str → Option Str,
      getParentAmount budget path
        (allocs.map (fun a => { a with period := f a.period })) =
      getParentAmount budget path allocs) ∧
    (∀ a, (jsSplit path).length ≠ 1 →
      allocs.find? (fun x => x.hierarchyPath == dropLastSeg path) = some a →
      getParentAmount budget path allocs = a.amount) := by
  refine ⟨?_, ?_, ?_, ?_⟩
  · intro h
    rw [getParentAmount_eq, if_pos h]
  · intro h
    rw [getParentAmount_eq]
    by_cases hlen : (jsSplit path).length = 1
    · rw [if_pos hlen]
    · rw [if_neg hlen]
      have : allocs.find? (fun a => a.hierarchyPath == dropLastSeg path) = none := by
        rw [List.find?_eq_none]
        intro x hx
        simpa using h x hx
      rw [this]
  · intro f
    rw [getParentAmount_eq, getParentAmount_eq]
    by_cases hlen : (jsSplit path).length = 1
    · rw [if_pos hlen, if_pos hlen]
    · rw [if_neg hlen, if_neg hlen, find?_map_period]
      cases h : allocs.find? (fun x => x.hierarchyPath == dropLastSeg path) with
      | none => rfl
      | some a => rfl
  · intro a hlen hfind
    rw [getParentAmount_eq, if_neg hlen, hfind]

theorem claim2_witness :
    getParentAmount 1000 (str ("A")) [allocQ2] = 1000 ∧
    getParentAmount 1000 (str ("A/B"))
      ([allocQ2].map (fun a => { a with period := some (str ("XX")) })) =
      getParentAmount 1000 (str ("A/B")) [allocQ2] ∧
    getParentAmount 1000 (str ("A/B")) [allocQ2] = allocQ2.amount := by
  refine ⟨?_, ?_, ?_⟩
  · exact (claim2_amended 1000 (str ("A")) [allocQ2]).1 (by decide)
  · exact (claim2_amended 1000 (str ("A/B")) [allocQ2]).2.2.1 (fun _ => some (str ("XX")))
  · exact (claim2_amended 1000 (str ("A/B")) [allocQ2]).2.2.2 allocQ2 (by decide) (by decide)

/-! ## Claim C3: quantity computation -/

/-- Claim C3 (corrected), counterexample: the tree node at path `A/C`
has `level = 3` (its SKU has no value at level 2, so the Tree Builder
creates the node at loop level 3 with a 2-segment path).  The
specification's quantity, using the derived path *at the node's level*,
is `floor(1000 / 100) = 10`; `updateAllocation` instead filters at the
segment-count depth 2, finds no related SKU, and stores quantity 0
(and stores `level = 2` on the new row). -/
theorem claim3_counterexample :
    ((buildState [] defsThree [skuGap]).nodeMap.map (fun e => (e.1, e.2.level))) =
      [(str ("A"), 1), (str ("A/C"), 3), (str ("A/C/S1"), 4)] ∧
    updateAllocation 5000 defsThree [skuGap] [allocRootA] (str ("A/C")) none 100 =
      [allocRootA, ⟨str ("A/C"), 2, 100, 1000, 0, none⟩] ∧
    specQuantity [skuGap] defsThree (str ("A/C")) 3 1000 = 10 ∧
    (0 : Nat) ≠ 10 := by
  refine ⟨by decide, by decide, by decide, by decide⟩

/-- Claim C3 (corrected, amended): `updateAllocation` guards the
division: with `tot` the unit-price sum over the SKUs it actually
relates to the path (segment-count level; SKU-code match at leaf
depth), the quantity is 0 whenever `tot = 0`, and otherwise is exactly
the floor of `amount / tot`. -/
theorem claim3_amended (amount : Nat) (skus : List Sku) (defs : List Str) (path : Str) :
    (totalUnitPriceOf skus defs path = 0 →
      updQuantity amount (totalUnitPriceOf skus defs path) = 0) ∧
    (0 < totalUnitPriceOf skus defs path →
      updQuantity amount (totalUnitPriceOf skus defs path) *
        totalUnitPriceOf skus defs path ≤ amount ∧
      amount < (updQuantity amount (totalUnitPriceOf skus defs path) + 1) *
        totalUnitPriceOf skus defs path) := by
  set t := totalUnitPriceOf skus defs path with ht
  constructor
  · intro h
    simp [updQuantity, h]
  · intro hpos
    have hq : updQuantity amount t = amount / t := by simp [updQuantity, hpos]
    rw [hq]
    constructor
    · exact Nat.div_mul_le_self amount t
    · have h1 : t * (amount / t) + amount % t = amount := Nat.div_add_mod amount t
      have h2 : amount % t < t := Nat.mod_lt _ hpos
      have h3 : (amount / t + 1) * t = t * (amount / t) + t := by ring
      omega

theorem claim3_witness :
    updQuantity 1000 (totalUnitPriceOf [] defsThree (str ("A"))) = 0 ∧
    updQuantity 1000 (totalUnitPriceOf [skuGap] defsThree (str ("A"))) *
      totalUnitPriceOf [skuGap] defsThree (str ("A")) ≤ 1000 ∧
    1000 < (updQuantity 1000 (totalUnitPriceOf [skuGap] defsThree (str ("A"))) + 1) *
      totalUnitPriceOf [skuGap] defsThree (str ("A")) := by
  refine ⟨?_, ?_⟩
  · exact (claim3_amended 1000 [] defsThree (str ("A"))).1 (by decide)
  · exact (claim3_amended 1000 [skuGap] defsThree (str ("A"))).2 (by decide)

/-! ## Claim C9: frame property of `updateAllocation` -/

theorem modifyAt_length (f : α → α) : ∀ (i : Nat) (l : List α),
    (modifyAt f i l).length = l.length := by
  intro i
  induction i with
  | zero => intro l; cases l <;> simp [modifyAt]
  | succ n ih => intro l; cases l <;> simp [modifyAt, ih]

theorem modifyAt_get?_ne (f : α → α) : ∀ (i j : Nat) (l : List α), j ≠ i →
    (modifyAt f i l).get? j = l.get? j := by
  intro i
  induction i with
  | zero =>
    intro j l hj
    cases l with
    | nil => rfl
    | cons x xs =>
      cases j with
      | zero => exact absurd rfl hj
      | succ m => simp [modifyAt]
  | succ n ih =>
    intro j l hj
    cases l with
    | nil => rfl
    | cons x xs =>
      cases j with
      | zero => simp [modifyAt]
      | succ m => simpa [modifyAt] using ih m xs (by omega)

theorem modifyAt_get?_eq (f : α → α) : ∀ (i : Nat) (l : List α),
    (modifyAt f i l).get? i = (l.get? i).map f := by
  intro i
  induction i with
  | zero => intro l; cases l <;> simp [modifyAt]
  | succ n ih =>
    intro l
    cases l with
    | nil => simp [modifyAt]
    | cons x xs =>
      have := ih xs
      simp only [modifyAt]
      simpa using this

theorem findIdx?_shift (p : α → Bool) : ∀ (l : List α) (s : Nat),
    List.findIdx? p l s = (List.findIdx? p l 0).map (· + s) := by
  intro l
  induction l with
  | nil => intro s; rfl
  | cons x xs ih =>
    intro s
    rw [List.findIdx?_cons, List.findIdx?_cons]
    by_cases hp : p x
    · rw [if_pos hp, if_pos hp]
      simp
    · rw [if_neg hp, if_neg hp, ih (s + 1), ih 1, Option.map_map]
      congr 1
      funext n
      simp only [Function.comp_apply]
      omega

theorem findIdx?_spec (p : α → Bool) : ∀ (l : List α) (i : Nat),
    List.findIdx? p l = some i → ∃ a, l.get? i = some a ∧ p a = true := by
  intro l
  induction l with
  | nil => intro i h; simp [List.findIdx?] at h
  | cons x xs ih =>
    intro i h
    rw [List.findIdx?_cons] at h
    by_cases hp : p x
    · rw [if_pos hp] at h
      cases h
      exact ⟨x, rfl, hp⟩
    · rw [if_neg hp, findIdx?_shift] at h
      cases hx : List.findIdx? p xs 0 with
      | none => rw [hx] at h; simp at h
      | some m =>
        rw [hx] at h
        simp only [Option.map_some'] at h
        rw [Option.some.injEq] at h
        obtain ⟨a, ha, hpa⟩ := ih m hx
        refine ⟨a, ?_, hpa⟩
        rw [← h]
        simpa using ha

/-- Claim C9 (confirmed): `updateAllocation` is frame-preserving.  When
some entry is keyed by `(path, period)`, only the first such entry is
rewritten — keeping its path, level and period and receiving the new
percentage, amount and quantity — and every other position of the list
is untouched; when none is, the list is extended by exactly one entry
whose `level` is the path's segment count.  In particular every entry
with a different `(hierarchyPath, period)` pair is left exactly as it
was. -/
theorem claim9_theorem (budget : Nat) (defs : List Str) (skus : List Sku)
    (allocs : List Allocation) (path : Str) (period : Option Str) (pct : Nat) :
    (∀ i, allocs.findIdx? (fun a => a.hierarchyPath == path && a.period == period) = some i →
      (updateAllocation budget defs skus allocs path period pct).length = allocs.length ∧
      (∀ j, j ≠ i →
        (updateAllocation budget defs skus allocs path period pct).get? j = allocs.get? j) ∧
      (∃ old, allocs.get? i = some old ∧ old.hierarchyPath = path ∧ old.period = period ∧
        (updateAllocation budget defs skus allocs path period pct).get? i =
          some (updatedRow budget defs skus allocs path pct old))) ∧
    (allocs.findIdx? (fun a => a.hierarchyPath == path && a.period == period) = none →
      updateAllocation budget defs skus allocs path period pct =
        allocs ++ [freshRow budget defs skus allocs path period pct]) ∧
    (∀ j a', allocs.get? j = some a' →
      ¬(a'.hierarchyPath = path ∧ a'.period = period) →
      (updateAllocation budget defs skus allocs path period pct).get? j = some a') := by
  refine ⟨?_, ?_, ?_⟩
  · intro i h
    have hout : updateAllocation budget defs skus allocs path period pct =
        modifyAt (updatedRow budget defs skus allocs path pct) i allocs := by
      unfold updateAllocation
      rw [h]
      rfl
    refine ⟨by rw [hout]; exact modifyAt_length _ i allocs, ?_, ?_⟩
    · intro j hj
      rw [hout]
      exact modifyAt_get?_ne _ i j allocs hj
    · obtain ⟨old, hold, hpred⟩ := findIdx?_spec _ allocs i h
      have hkey : old.hierarchyPath = path ∧ old.period = period := by
        have := hpred
        simp only [Bool.and_eq_true, beq_iff_eq] at this
        exact this
      refine ⟨old, hold, hkey.1, hkey.2, ?_⟩
      rw [hout, modifyAt_get?_eq, hold]
      rfl
  · intro h
    unfold updateAllocation
    rw [h]
    rfl
  · intro j a' hj hne
    cases h : allocs.findIdx? (fun a => a.hierarchyPath == path && a.period == period) with
    | some i =>
      have hout : updateAllocation budget defs skus allocs path period pct =
          modifyAt (updatedRow budget defs skus allocs path pct) i allocs := by
        unfold updateAllocation
        rw [h]
        rfl
      have hji : j ≠ i := by
        intro hcon
        subst hcon
        obtain ⟨old, hold, hpred⟩ := findIdx?_spec _ allocs j h
        rw [hj] at hold
        cases hold
        simp only [Bool.and_eq_true, beq_iff_eq] at hpred
        exact hne hpred
      rw [hout, modifyAt_get?_ne _ i j allocs hji, hj]
    | none =>
      have hout : updateAllocation budget defs skus allocs path period pct =
          allocs ++ [freshRow budget defs skus allocs path period pct] := by
        unfold updateAllocation
        rw [h]
        rfl
      have hlen : j < allocs.length := by
        by_contra hcon
        push_neg at hcon
        rw [List.get?_eq_none.mpr hcon] at hj
        cases hj
      rw [hout]
      rw [List.get?_append hlen]
      exact hj

theorem claim9_witness :
    (updateAllocation 1000 [] [] [allocQ2, allocRootA] (str ("A")) (some (str ("Q2"))) 10).get? 1 =
      some allocRootA ∧
    updateAllocation 1000 [] [] [allocRootA] (str ("B")) none 10 =
      [allocRootA, ⟨str ("B"), 1, 10, 100, 0, none⟩] := by
  constructor
  · exact (claim9_theorem 1000 [] [] [allocQ2, allocRootA] (str ("A")) (some (str ("Q2"))) 10).2.2
      1 allocRootA (by decide) (by decide)
  · have h := (claim9_theorem 1000 [] [] [allocRootA] (str ("B")) none 10).2.1 (by decide)
    rw [h]
    decide

/-! ## Claim C8: transactionality -/

/-- Claim C8 (code bug), evaluation at the failing input: with one
budget row and two allocation rows persisted, a failure of the
`createMany` that follows the already-committed `deleteMany` in the
allocation-save handler leaves the store with *zero* allocation rows —
a partial write, not the initial state.  Likewise the period-delete
handler persists the budget-row deletion when the subsequent allocation
`deleteMany` fails.  The period rename, whose three statements run
inside one `$transaction`, does roll back to the initial state. -/
theorem claim8_evaluation :
    runFailAt dbDemo (putAllocationsProgram dbDemo.allocations) 1 ≠ dbDemo ∧
    (runFailAt dbDemo (putAllocationsProgram dbDemo.allocations) 1).allocations = [] ∧
    runFailAt dbDemo (deletePeriodProgram (some (str ("Q1")))) 1 ≠ dbDemo ∧
    (runFailAt dbDemo (deletePeriodProgram (some (str ("Q1")))) 1).budgets = [] ∧
    (runFailAt dbDemo (deletePeriodProgram (some (str ("Q1")))) 1).allocations ≠ [] ∧
    runFailAt dbDemo (renamePeriodProgram (some (str ("Q1"))) (str ("Q2")) 777) 0 = dbDemo := by
  refine ⟨by decide, by decide, by decide, by decide, by decide, by decide⟩

/-! ## Claim C10: period creation without data, and the period listing -/

theorem mem_insertSorted (le : α → α → Bool) (x a : α) :
    ∀ l : List α, a ∈ insertSorted le x l ↔ a = x ∨ a ∈ l := by
  intro l
  induction l with
  | nil => simp [insertSorted]
  | cons y ys ih =>
    simp only [insertSorted]
    by_cases h : le x y
    · simp [h]
    · simp only [h, if_false, Bool.false_eq_true, List.mem_cons, ih]
      tauto

theorem mem_insertionSort (le : α → α → Bool) (a : α) :
    ∀ l : List α, a ∈ insertionSort le l ↔ a ∈ l := by
  intro l
  induction l with
  | nil => simp [insertionSort]
  | cons x xs ih =>
    simp only [insertionSort, mem_insertSorted, ih, List.mem_cons]

theorem mem_foldl_pushNew [DecidableEq α] :
    ∀ (l acc : List α) (a : α), a ∈ l.foldl pushNew acc ↔ a ∈ acc ∨ a ∈ l := by
  intro l
  induction l with
  | nil => simp
  | cons x xs ih =>
    intro acc a
    simp only [List.foldl_cons, ih]
    unfold pushNew
    by_cases h : x ∈ acc
    · rw [if_pos h]
      simp only [List.mem_cons]
      constructor
      · rintro (ha | ha)
        · exact Or.inl ha
        · exact Or.inr (Or.inr ha)
      · rintro (ha | ha | ha)
        · exact Or.inl ha
        · exact Or.inl (ha ▸ h)
        · exact Or.inr ha
    · rw [if_neg h]
      simp only [List.mem_append, List.mem_singleton, List.mem_cons]
      tauto

/-- Claim C10 (confirmed): in the allocation-derived generation of the
Period Manager, creating a period for a session with no SKU data or no
hierarchy definitions (and no usable copy source) returns success with
`copied = 0`, inserts no allocation row, and consequently the new
period is absent from a subsequent `GET` listing, which enumerates only
the distinct period values on allocation rows. -/
theorem claim10_theorem (allocs : List Allocation) (skus : List Sku) (defs : List Str)
    (pName : Str) (copyFrom : Option Str)
    (hname : pName ≠ [])
    (hempty : skus = [] ∨ defs = [])
    (hfresh : ∀ a ∈ allocs, a.period ≠ some pName)
    (hsource : ∀ cf, copyFrom = some cf → ∀ a ∈ allocs, a.period ≠ some cf) :
    postPeriod1 allocs skus defs pName copyFrom = (.success 0, allocs) ∧
    some pName ∉ listPeriods1 allocs := by
  have hfind : allocs.find? (fun a => a.period == some pName) = none := by
    rw [List.find?_eq_none]
    intro a ha
    simpa using hfresh a ha
  have hseed : ¬ (skus ≠ [] ∧ defs ≠ []) := by
    rcases hempty with h | h
    · exact fun hc => hc.1 h
    · exact fun hc => hc.2 h
  constructor
  · unfold postPeriod1
    rw [if_neg hname, hfind]
    simp only [Option.isSome_none, Bool.false_eq_true, if_false, if_neg hseed]
    cases copyFrom with
    | none => rfl
    | some cf =>
      by_cases hcf : cf = []
      · subst hcf
        rfl
      · have hsrc : allocs.filter (fun a => a.period == some cf) = [] := by
          rw [List.filter_eq_nil_iff]
          intro a ha
          simpa using hsource cf rfl a ha
        simp [hsrc, hcf]
  · intro hmem
    unfold listPeriods1 at hmem
    rw [mem_insertionSort] at hmem
    rw [mem_foldl_pushNew] at hmem
    rcases hmem with h | h
    · cases h
    · obtain ⟨a, ha, hpa⟩ := List.mem_map.mp h
      exact hfresh a ha hpa

theorem claim10_witness :
    postPeriod1 [allocQ2] [] defsThree (str ("Q9")) none =
      (.success 0, [allocQ2]) ∧
    some (str ("Q9")) ∉ listPeriods1 [allocQ2] :=
  claim10_theorem [allocQ2] [] defsThree (str ("Q9")) none (by decide) (Or.inl rfl)
    (by decide) (by simp)

/-! ## Claim C7: period rename -/

theorem countPeriod_cons (a : Allocation) (l : List Allocation) (p : Option Str) :
    countPeriod (a :: l) p = countPeriod l p + (if a.period = p then 1 else 0) := by
  unfold countPeriod
  rw [List.filter_cons]
  by_cases h : a.period = p
  · simp [h]
  · simp [h]

theorem countPeriod_map_rename (old : Option Str) (newP : Str)
    (hne : old ≠ some newP) :
    ∀ l : List Allocation,
    countPeriod (l.map (fun a =>
      if a.period == old then { a with period := some newP } else a)) old = 0 ∧
    countPeriod (l.map (fun a =>
      if a.period == old then { a with period := some newP } else a)) (some newP)
      = countPeriod l old + countPeriod l (some newP) := by
  intro l
  induction l with
  | nil => exact ⟨rfl, rfl⟩
  | cons a as ih =>
    obtain ⟨ih1, ih2⟩ := ih
    rw [List.map_cons]
    by_cases h : a.period = old
    · have hb : (a.period == old) = true := by simpa using h
      rw [hb, if_pos rfl]
      constructor
      · rw [countPeriod_cons, ih1]
        simp [hne.symm]
      · rw [countPeriod_cons, ih2, countPeriod_cons, countPeriod_cons]
        simp only [h, if_pos rfl]
        have : ¬ old = some newP := hne
        simp [this]
        omega
    · have hb : (a.period == old) = false := by simpa using h
      rw [hb]
      simp only [Bool.false_eq_true, if_false]
      constructor
      · rw [countPeriod_cons, ih1]
        simp [h]
      · rw [countPeriod_cons, ih2, countPeriod_cons, countPeriod_cons]
        simp [h]
        omega

theorem countPeriod_eq_zero_iff (l : List Allocation) (p : Option Str) :
    countPeriod l p = 0 ↔ ∀ a ∈ l, a.period ≠ p := by
  unfold countPeriod
  rw [List.length_eq_zero, List.filter_eq_nil_iff]
  constructor
  · intro h a ha
    simpa using h a ha
  · intro h a ha
    simpa using h a ha

/-- Claim C7 (confirmed): in both generations of the rename handler, a
successful `rename(old → new)` leaves zero allocation rows with
`period = old` and exactly as many rows with `period = new` as carried
`old` before; and when the period `new` already exists beforehand (an
allocation row in the allocation-derived generation, a `period_budgets`
row in the budget generation) the rename is rejected and the state is
returned unchanged.  The budget-generation count statement assumes the
schema's referential invariant that every allocation row's period has a
budget row. -/
theorem claim7_theorem (allocs : List Allocation) (old : Option Str) (newP : Str)
    (db : DB2) :
    ((∃ a ∈ allocs, a.period = some newP) →
      (renamePeriod1 allocs old newP).2 = allocs ∧
      ∀ k, (renamePeriod1 allocs old newP).1 ≠ .ok k) ∧
    (∀ k, (renamePeriod1 allocs old newP).1 = .ok k →
      countPeriod (renamePeriod1 allocs old newP).2 old = 0 ∧
      countPeriod (renamePeriod1 allocs old newP).2 (some newP) = countPeriod allocs old ∧
      k = countPeriod allocs old) ∧
    ((∃ b ∈ db.budgets, b.1 = some newP) →
      (renamePeriod2 db old newP).2 = db ∧
      ∀ k, (renamePeriod2 db old newP).1 ≠ .ok k) ∧
    ((∀ a ∈ db.allocations, ∃ b ∈ db.budgets, b.1 = a.period) →
      ∀ k, (renamePeriod2 db old newP).1 = .ok k →
      countPeriod (renamePeriod2 db old newP).2.allocations old = 0 ∧
      countPeriod (renamePeriod2 db old newP).2.allocations (some newP) =
        countPeriod db.allocations old ∧
      k = countPeriod db.allocations old) := by
  refine ⟨?_, ?_, ?_, ?_⟩
  · intro ⟨a, ha, hpa⟩
    unfold renamePeriod1
    by_cases h1 : newP = []
    · rw [if_pos h1]
      exact ⟨rfl, fun k hk => by cases hk⟩
    · rw [if_neg h1]
      by_cases h2 : (allocs.filter (fun a => a.period == old)).length = 0
      · rw [if_pos h2]
        exact ⟨rfl, fun k hk => by cases hk⟩
      · rw [if_neg h2]
        have hfound : (allocs.find? (fun a => a.period == some newP)).isSome :=
          List.find?_isSome.mpr ⟨a, ha, by simpa using hpa⟩
        rw [if_pos hfound]
        exact ⟨rfl, fun k hk => by cases hk⟩
  · intro k hk
    unfold renamePeriod1 at hk ⊢
    by_cases h1 : newP = []
    · rw [if_pos h1] at hk
      cases hk
    · rw [if_neg h1] at hk ⊢
      by_cases h2 : (allocs.filter (fun a => a.period == old)).length = 0
      · rw [if_pos h2] at hk
        cases hk
      · rw [if_neg h2] at hk ⊢
        by_cases h3 : (allocs.find? (fun a => a.period == some newP)).isSome
        · rw [if_pos h3] at hk
          cases hk
        · rw [if_neg h3] at hk ⊢
          have hnone : allocs.find? (fun a => a.period == some newP) = none :=
            Option.not_isSome_iff_eq_none.mp h3
          have hnonew : ∀ a ∈ allocs, a.period ≠ some newP := by
            intro a ha
            have := List.find?_eq_none.mp hnone a ha
            simpa using this
          have hcount0 : countPeriod allocs (some newP) = 0 :=
            (countPeriod_eq_zero_iff allocs (some newP)).mpr hnonew
          have hne : old ≠ some newP := by
            intro hcon
            apply h2
            subst hcon
            exact hcount0
          obtain ⟨hc1, hc2⟩ := countPeriod_map_rename old newP hne allocs
          have hkk : RenameOutcome.ok (allocs.filter (fun a => a.period == old)).length =
              .ok k := hk
          cases hkk
          exact ⟨hc1, by rw [hc2, hcount0]; omega, rfl⟩
          -- end of generation-1 success case
  · intro ⟨b, hb, hpb⟩
    unfold renamePeriod2
    by_cases h1 : newP = []
    · rw [if_pos h1]
      exact ⟨rfl, fun k hk => by cases hk⟩
    · rw [if_neg h1]
      cases hfind : db.budgets.find? (fun x => x.1 == old) with
      | none => exact ⟨rfl, fun k hk => by cases hk⟩
      | some oldB =>
        have hfound : (db.budgets.find? (fun x => x.1 == some newP)).isSome :=
          List.find?_isSome.mpr ⟨b, hb, by simpa using hpb⟩
        refine ⟨?_, ?_⟩
        · show ((if (db.budgets.find? (fun x => x.1 == some newP)).isSome
              then (RenameOutcome.conflict, db)
              else _) : RenameOutcome × DB2).2 = db
          rw [if_pos hfound]
        · intro k
          show ((if (db.budgets.find? (fun x => x.1 == some newP)).isSome
              then (RenameOutcome.conflict, db)
              else _) : RenameOutcome × DB2).1 ≠ .ok k
          rw [if_pos hfound]
          intro hk
          cases hk
  · intro hcov k hk
    unfold renamePeriod2 at hk ⊢
    by_cases h1 : newP = []
    · rw [if_pos h1] at hk
      cases hk
    · rw [if_neg h1] at hk ⊢
      cases hfind : db.budgets.find? (fun x => x.1 == old) with
      | none =>
        rw [hfind] at hk
        cases hk
      | some oldB =>
        simp only [hfind] at hk ⊢
        by_cases h3 : (db.budgets.find? (fun x => x.1 == some newP)).isSome
        · rw [if_pos h3] at hk
          cases hk
        · rw [if_neg h3] at hk ⊢
          have hnone : db.budgets.find? (fun x => x.1 == some newP) = none :=
            Option.not_isSome_iff_eq_none.mp h3
          have hnonewb : ∀ x ∈ db.budgets, x.1 ≠ some newP := by
            intro x hx
            have := List.find?_eq_none.mp hnone x hx
            simpa using this
          have hnonew : ∀ a ∈ db.allocations, a.period ≠ some newP := by
            intro a ha
            obtain ⟨x, hx, hpx⟩ := hcov a ha
            intro hcon
            exact hnonewb x hx (hpx.trans hcon)
          have hcount0 : countPeriod db.allocations (some newP) = 0 :=
            (countPeriod_eq_zero_iff db.allocations (some newP)).mpr hnonew
          have hne : old ≠ some newP := by
            intro hcon
            have hmem := List.mem_of_find?_eq_some hfind
            have hp := List.find?_some hfind
            have : oldB.1 = old := by simpa using hp
            exact hnonewb oldB hmem (this.trans hcon)
          obtain ⟨hc1, hc2⟩ := countPeriod_map_rename old newP hne db.allocations
          have hkk : RenameOutcome.ok (countPeriod db.allocations old) = .ok k := hk
          cases hkk
          exact ⟨hc1, by rw [hc2, hcount0]; omega, rfl⟩

theorem claim7_witness :
    (renamePeriod1 [alloc50Q1] (some (str ("Q2"))) (str ("Q1"))).2 = [alloc50Q1] ∧
    countPeriod (renamePeriod1 [alloc50Q1] (some (str ("Q1"))) (str ("Q2"))).2
      (some (str ("Q1"))) = 0 ∧
    countPeriod (renamePeriod2 dbDemo (some (str ("Q1"))) (str ("Q2"))).2.allocations
      (some (str ("Q2"))) = countPeriod dbDemo.allocations (some (str ("Q1"))) := by
  refine ⟨?_, ?_, ?_⟩
  · exact ((claim7_theorem [alloc50Q1] (some (str ("Q2"))) (str ("Q1")) dbDemo).1
      ⟨alloc50Q1, by decide, by decide⟩).1
  · exact ((claim7_theorem [alloc50Q1] (some (str ("Q1"))) (str ("Q2")) dbDemo).2.1
      1 (by decide)).1
  · exact ((claim7_theorem [] (some (str ("Q1"))) (str ("Q2")) dbDemo).2.2.2
      (by decide) 2 (by decide)).2.1

/-! ## Claim C6: CSV export, cumulative percentage cell -/

theorem cellFold_spec (pa : List Allocation) (parts : List Str) (n : Nat) :
    ∀ j, j ≤ n →
    (((List.range' 1 j).foldl (cellStep pa parts n) (1, 1, false)).2.2 = true ↔
      (List.range' 1 j).filterMap (posPctAt pa parts) ≠ []) ∧
    ((List.range' 1 j).foldl (cellStep pa parts n) (1, 1, false)).2.1 =
      100 ^ ((List.range' 1 j).filterMap (posPctAt pa parts)).length ∧
    ((List.range' 1 j).filterMap (posPctAt pa parts) ≠ [] →
      ((List.range' 1 j).foldl (cellStep pa parts n) (1, 1, false)).1 =
        ((List.range' 1 j).filterMap (posPctAt pa parts)).prod) ∧
    ((List.range' 1 j).filterMap (posPctAt pa parts) = [] →
      ((List.range' 1 j).foldl (cellStep pa parts n) (1, 1, false)).1 =
        (if j = n ∧ 1 ≤ n then 0 else 1)) := by
  intro j
  induction j with
  | zero =>
    intro _
    refine ⟨by simp, by simp, by simp, ?_⟩
    intro _
    have : ¬ (0 = n ∧ 1 ≤ n) := by omega
    simp [this]
  | succ j ih =>
    intro hj
    obtain ⟨ih1, ih2, ih3, ih4⟩ := ih (by omega)
    have hconc : List.range' 1 (j + 1) = List.range' 1 j ++ [1 + j] := by
      rw [List.range'_concat]
      simp
    rw [hconc, List.foldl_append, List.filterMap_append]
    set st := (List.range' 1 j).foldl (cellStep pa parts n) (1, 1, false) with hst
    set coll := (List.range' 1 j).filterMap (posPctAt pa parts) with hcoll
    simp only [List.foldl_cons, List.foldl_nil, List.filterMap_cons, List.filterMap_nil]
    cases hpos : posPctAt pa parts (1 + j) with
    | some p =>
      simp only [cellStep, hpos, List.append_nil]
      refine ⟨by simp, ?_, ?_, ?_⟩
      · simp only [List.length_append, List.length_cons, List.length_nil]
        rw [ih2]
        ring
      · intro _
        by_cases hc : coll = []
        · have h1 : st.1 = 1 := by
            have h4 := ih4 hc
            have hne : ¬ (j = n ∧ 1 ≤ n) := by omega
            rw [h4, if_neg hne]
          rw [h1, hc]
          simp
        · rw [List.prod_append, ih3 hc]
          simp
      · intro hcon
        have : coll ++ [p] ≠ [] := by simp
        exact absurd hcon this
    | none =>
      simp only [cellStep, hpos, List.append_nil]
      by_cases hz : 1 + j = n ∧ st.2.2 = false
      · rw [if_pos hz]
        have hc : coll = [] := by
          by_contra hcc
          have := ih1.mpr hcc
          rw [this] at hz
          exact absurd hz.2 (by simp)
        refine ⟨?_, ?_, ?_, ?_⟩
        · exact ih1
        · exact ih2
        · intro hcc
          exact absurd hc hcc
        · intro _
          have hcnd : (j + 1 = n ∧ 1 ≤ n) := by omega
          rw [if_pos hcnd]
      · rw [if_neg hz]
        refine ⟨ih1, ih2, ih3, ?_⟩
        intro hc
        rw [ih4 hc]
        have h2 : st.2.2 = false := by
          cases hb : st.2.2 with
          | false => rfl
          | true => exact absurd (ih1.mp hb) (by simp [hc])
        have hne1 : ¬ (j = n ∧ 1 ≤ n) := by
          intro hcon
          omega
        have hne2 : ¬ (j + 1 = n ∧ 1 ≤ n) := by
          intro hcon
          exact hz ⟨by omega, h2⟩
        rw [if_neg hne1, if_neg hne2]

theorem posPctAt_pos (pa : List Allocation) (parts : List Str) (level p : Nat)
    (h : posPctAt pa parts level = some p) : 0 < p := by
  cases hfind : pa.find? (fun a => a.hierarchyPath == jsJoin (parts.take level)) with
  | none =>
    simp only [posPctAt, hfind] at h
    cases h
  | some a =>
    simp only [posPctAt, hfind] at h
    by_cases hp : 0 < a.percentage
    · rw [if_pos hp] at h
      cases h
      exact hp
    · rw [if_neg hp] at h
      cases h

theorem toFixed4_ne_nil (num den : Nat) : toFixed4 num den ≠ [] := by
  unfold toFixed4
  intro h
  rcases List.append_eq_nil.mp h with ⟨_, h2⟩
  cases h2

/-- Claim C6 (corrected), counterexample: for a SKU at path `A/S1` with
a 50 % allocation at `A` for period `Q1` and *no* allocation at `A/S1`,
the specification says the cumulative-percentage cell is blank (an
ancestor level lacks an allocation), but `exportToCSV` skips the missing
level and prints `50.0000`. -/
theorem claim6_counterexample :
    exportPeriodCell [alloc50Q1] (some (str ("Q1"))) (str ("A/S1")) = str ("50.0000") ∧
    specExportCell [alloc50Q1] (some (str ("Q1"))) (str ("A/S1")) = [] ∧
    str ("50.0000") ≠ ([] : Str) := by
  refine ⟨by decide, by decide, by decide⟩

/-- Claim C6 (corrected, amended): the cumulative-percentage cell of
one SKU row and one period multiplies the percentages of exactly those
levels along the path that carry an allocation with positive percentage
for that period — levels lacking one are skipped, not blanking — and the
cell is blank precisely when *no* level along the path carries a
positive-percentage allocation; a non-blank cell prints the product (as
a percentage) with four decimal places. -/
theorem claim6_amended (allocs : List Allocation) (period : Option Str) (skuPath : Str) :
    (exportPeriodCell allocs period skuPath = [] ↔
      ∀ level ∈ List.range' 1 (jsSplit skuPath).length,
        posPctAt (allocs.filter (fun a => a.period == period)) (jsSplit skuPath) level
          = none) ∧
    (exportPeriodCell allocs period skuPath ≠ [] →
      exportPeriodCell allocs period skuPath =
        toFixed4
          ((((List.range' 1 (jsSplit skuPath).length).filterMap
              (posPctAt (allocs.filter (fun a => a.period == period))
                (jsSplit skuPath))).prod) * 100)
          (100 ^ (((List.range' 1 (jsSplit skuPath).length).filterMap
              (posPctAt (allocs.filter (fun a => a.period == period))
                (jsSplit skuPath))).length))) := by
  obtain ⟨h1, h2, h3, h4⟩ :=
    cellFold_spec (allocs.filter (fun a => a.period == period)) (jsSplit skuPath)
      (jsSplit skuPath).length (jsSplit skuPath).length (le_refl _)
  set pa := allocs.filter (fun a => a.period == period) with hpa
  set parts := jsSplit skuPath with hparts
  set n := parts.length with hn
  set st := (List.range' 1 n).foldl (cellStep pa parts n) (1, 1, false) with hst
  set coll := (List.range' 1 n).filterMap (posPctAt pa parts) with hcoll
  have hcell : exportPeriodCell allocs period skuPath =
      if 0 < st.1 ∧ st.2.2 = true then toFixed4 (st.1 * 100) st.2.1 else [] := rfl
  by_cases hc : coll = []
  · have hhas : st.2.2 = false := by
      cases hb : st.2.2 with
      | false => rfl
      | true => exact absurd (h1.mp hb) (by simp [hc])
    have hcond : ¬ (0 < st.1 ∧ st.2.2 = true) := by
      intro hcon
      rw [hhas] at hcon
      cases hcon.2
    rw [hcell, if_neg hcond]
    constructor
    · constructor
      · intro _
        exact List.filterMap_eq_nil_iff.mp hc
      · intro _
        rfl
    · intro hcon
      exact absurd rfl hcon
  · have hhas : st.2.2 = true := h1.mpr hc
    have hprod : st.1 = coll.prod := h3 hc
    have hpos : 0 < coll.prod := by
      apply List.prod_pos
      intro p hp
      obtain ⟨level, _, hlev⟩ := List.mem_filterMap.mp hp
      exact posPctAt_pos pa parts level p hlev
    have hcond : 0 < st.1 ∧ st.2.2 = true := ⟨by rw [hprod]; exact hpos, hhas⟩
    rw [hcell, if_pos hcond]
    constructor
    · constructor
      · intro h
        exact absurd h (toFixed4_ne_nil _ _)
      · intro hall
        exact absurd (List.filterMap_eq_nil_iff.mpr hall) hc
    · intro _
      rw [hprod, h2]

theorem claim6_witness :
    exportPeriodCell [alloc50Q1] (some (str ("Q2"))) (str ("A/S1")) = [] ∧
    exportPeriodCell [alloc50Q1, ⟨str ("A/S1"), 2, 40, 0, 0, some (str ("Q1"))⟩]
        (some (str ("Q1"))) (str ("A/S1")) =
      toFixed4
        ((((List.range' 1 (jsSplit (str ("A/S1"))).length).filterMap
            (posPctAt ([alloc50Q1, ⟨str ("A/S1"), 2, 40, 0, 0, some (str ("Q1"))⟩].filter
                (fun a => a.period == some (str ("Q1")))) (jsSplit (str ("A/S1"))))).prod) * 100)
        (100 ^ (((List.range' 1 (jsSplit (str ("A/S1"))).length).filterMap
            (posPctAt ([alloc50Q1, ⟨str ("A/S1"), 2, 40, 0, 0, some (str ("Q1"))⟩].filter
                (fun a => a.period == some (str ("Q1")))) (jsSplit (str ("A/S1"))))).length)) := by
  constructor
  · exact (claim6_amended [alloc50Q1] (some (str ("Q2"))) (str ("A/S1"))).1.mpr (by decide)
  · exact (claim6_amended [alloc50Q1, ⟨str ("A/S1"), 2, 40, 0, 0, some (str ("Q1"))⟩]
      (some (str ("Q1"))) (str ("A/S1"))).2 (by decide)

/-! ## Claim C5: placeholder seeding on period creation -/

theorem mem_pushNew [DecidableEq α] (acc : List α) (x a : α) :
    a ∈ pushNew acc x ↔ a ∈ acc ∨ a = x := by
  unfold pushNew
  by_cases h : x ∈ acc
  · rw [if_pos h]
    constructor
    · exact Or.inl
    · rintro (ha | ha)
      · exact ha
      · exact ha ▸ h
  · rw [if_neg h]
    simp

theorem nodup_pushNew [DecidableEq α] (acc : List α) (x : α) (h : acc.Nodup) :
    (pushNew acc x).Nodup := by
  unfold pushNew
  by_cases hx : x ∈ acc
  · rw [if_pos hx]
    exact h
  · rw [if_neg hx]
    rw [List.nodup_append]
    exact ⟨h, List.nodup_singleton x, by simpa using hx⟩

theorem seedPaths_inner_mem (defs : List Str) (sku : Sku) :
    ∀ (levels : List Nat) (acc : List Str) (p : Str),
    p ∈ levels.foldl
      (fun acc' level =>
        match completePath sku defs level with
        | some q => pushNew acc' q
        | none => acc') acc ↔
    p ∈ acc ∨ ∃ L ∈ levels, completePath sku defs L = some p := by
  intro levels
  induction levels with
  | nil => simp
  | cons l ls ih =>
    intro acc p
    rw [List.foldl_cons]
    cases hc : completePath sku defs l with
    | none =>
      rw [ih]
      simp only [List.mem_cons]
      constructor
      · rintro (h | ⟨L, hL, hcl⟩)
        · exact Or.inl h
        · exact Or.inr ⟨L, Or.inr hL, hcl⟩
      · rintro (h | ⟨L, hL | hL, hcl⟩)
        · exact Or.inl h
        · rw [hL] at hcl
          rw [hcl] at hc
          cases hc
        · exact Or.inr ⟨L, hL, hcl⟩
    | some q =>
      rw [ih, mem_pushNew]
      constructor
      · rintro ((h | h) | ⟨L, hL, hcl⟩)
        · exact Or.inl h
        · exact Or.inr ⟨l, List.mem_cons_self l ls, h ▸ hc⟩
        · exact Or.inr ⟨L, List.mem_cons_of_mem l hL, hcl⟩
      · rintro (h | ⟨L, hL, hcl⟩)
        · exact Or.inl (Or.inl h)
        · rcases List.mem_cons.mp hL with hq | hq
          · rw [hq] at hcl
            rw [hcl] at hc
            cases hc
            exact Or.inl (Or.inr rfl)
          · exact Or.inr ⟨L, hq, hcl⟩

theorem mem_seedPaths (skus : List Sku) (defs : List Str) (p : Str) :
    p ∈ seedPaths skus defs ↔
    ∃ sku ∈ skus, ∃ L, 1 ≤ L ∧ L ≤ defs.length ∧ completePath sku defs L = some p := by
  unfold seedPaths
  suffices h : ∀ (ss : List Sku) (acc : List Str),
      p ∈ ss.foldl
        (fun acc sku =>
          (List.range' 1 defs.length).foldl
            (fun acc' level =>
              match completePath sku defs level with
              | some q => pushNew acc' q
              | none => acc') acc) acc ↔
      p ∈ acc ∨ ∃ sku ∈ ss, ∃ L, 1 ≤ L ∧ L ≤ defs.length ∧
        completePath sku defs L = some p by
    rw [h skus []]
    simp
  intro ss
  induction ss with
  | nil => simp
  | cons sku rest ih =>
    intro acc
    rw [List.foldl_cons, ih, seedPaths_inner_mem]
    constructor
    · rintro ((h | ⟨L, hL, hcl⟩) | ⟨s, hs, L, h1, h2, hcl⟩)
      · exact Or.inl h
      · rcases List.mem_range'_1.mp hL with ⟨ha, hb⟩
        exact Or.inr ⟨sku, List.mem_cons_self _ _, L, ha, by omega, hcl⟩
      · exact Or.inr ⟨s, List.mem_cons_of_mem _ hs, L, h1, h2, hcl⟩
    · rintro (h | ⟨s, hs, L, h1, h2, hcl⟩)
      · exact Or.inl (Or.inl h)
      · rcases List.mem_cons.mp hs with hq | hq
        · subst hq
          exact Or.inl (Or.inr ⟨L, List.mem_range'_1.mpr ⟨h1, by omega⟩, hcl⟩)
        · exact Or.inr ⟨s, hq, L, h1, h2, hcl⟩

theorem seedPaths_nodup (skus : List Sku) (defs : List Str) :
    (seedPaths skus defs).Nodup := by
  unfold seedPaths
  suffices h : ∀ (ss : List Sku) (acc : List Str), acc.Nodup →
      (ss.foldl
        (fun acc sku =>
          (List.range' 1 defs.length).foldl
            (fun acc' level =>
              match completePath sku defs level with
              | some q => pushNew acc' q
              | none => acc') acc) acc).Nodup by
    exact h skus [] List.nodup_nil
  have hinner : ∀ (ls : List Nat) (sku : Sku) (acc : List Str), acc.Nodup →
      (ls.foldl
        (fun acc' level =>
          match completePath sku defs level with
          | some q => pushNew acc' q
          | none => acc') acc).Nodup := by
    intro ls
    induction ls with
    | nil => intro _ acc h; exact h
    | cons l ls ih =>
      intro sku acc h
      rw [List.foldl_cons]
      cases hc : completePath sku defs l with
      | none => exact ih sku acc h
      | some q => exact ih sku (pushNew acc q) (nodup_pushNew acc q h)
  intro ss
  induction ss with
  | nil => intro acc h; exact h
  | cons sku rest ih =>
    intro acc h
    rw [List.foldl_cons]
    exact ih _ (hinner _ sku acc h)

theorem find?_append_of_some (l1 l2 : List α) (p : α → Bool) (e : α)
    (h : l1.find? p = some e) : (l1 ++ l2).find? p = some e := by
  induction l1 with
  | nil => cases h
  | cons x xs ih =>
    cases hp : p x with
    | true =>
      simp only [List.cons_append, List.find?_cons, hp] at h ⊢
      exact h
    | false =>
      simp only [List.cons_append, List.find?_cons, hp] at h ⊢
      exact ih h

theorem find?_append_of_none (l1 l2 : List α) (p : α → Bool)
    (h : l1.find? p = none) : (l1 ++ l2).find? p = l2.find? p := by
  induction l1 with
  | nil => rfl
  | cons x xs ih =>
    cases hp : p x with
    | true =>
      simp only [List.find?_cons, hp] at h
      cases h
    | false =>
      simp only [List.cons_append, List.find?_cons, hp] at h ⊢
      exact ih h

theorem find?_addmap (m : List (Str × List Str)) (parent child k : Str) :
    (m.map (fun e => if e.1 == parent then (e.1, pushNew e.2 child) else e)).find?
      (fun e => e.1 == k) =
    (m.find? (fun e => e.1 == k)).map
      (fun e => if e.1 == parent then (e.1, pushNew e.2 child) else e) := by
  induction m with
  | nil => rfl
  | cons e es ih =>
    rw [List.map_cons, List.find?_cons, List.find?_cons]
    have hkey : (if (e.1 == parent) = true then (e.1, pushNew e.2 child) else e).1 = e.1 := by
      split <;> rfl
    rw [hkey]
    cases hk : (e.1 == k) with
    | true =>
      simp only [hk]
      rfl
    | false =>
      simp only [hk]
      exact ih

theorem childListOf_addChildSet (m : List (Str × List Str)) (parent child k : Str)
    (hnotin : child ∉ childListOf m parent) :
    childListOf (addChildSet m parent child) k =
      if k = parent then childListOf m k ++ [child] else childListOf m k := by
  by_cases hkp : k = parent
  · subst hkp
    rw [if_pos rfl]
    unfold addChildSet
    by_cases hfound : (m.find? (fun e => e.1 == k)).isSome
    · rw [if_pos hfound]
      obtain ⟨e, hf⟩ := Option.isSome_iff_exists.mp hfound
      have hek : e.1 = k := by simpa using List.find?_some hf
      have hlist : childListOf m k = e.2 := by
        unfold childListOf
        rw [hf]
      rw [hlist] at hnotin ⊢
      unfold childListOf
      rw [find?_addmap, hf, Option.map_some']
      have hepar : (e.1 == k) = true := by simpa using hek
      have hge : (if (e.1 == k) = true then (e.1, pushNew e.2 child) else e) =
          (e.1, pushNew e.2 child) := by rw [if_pos hepar]
      rw [hge]
      show pushNew e.2 child = e.2 ++ [child]
      unfold pushNew
      rw [if_neg hnotin]
    · rw [if_neg hfound]
      have hnone := Option.not_isSome_iff_eq_none.mp hfound
      have hlist : childListOf m k = [] := by
        unfold childListOf
        rw [hnone]
      rw [hlist]
      unfold childListOf
      rw [find?_append_of_none m _ _ hnone]
      have hsingle : ([((k : Str), [child])].find? (fun e => e.1 == k)) =
          some (k, [child]) := by simp
      rw [hsingle]
      rfl
  · rw [if_neg hkp]
    unfold addChildSet
    by_cases hfound : (m.find? (fun e => e.1 == parent)).isSome
    · rw [if_pos hfound]
      unfold childListOf
      rw [find?_addmap]
      cases hf : m.find? (fun e => e.1 == k) with
      | none => rfl
      | some e =>
        have hek : e.1 = k := by simpa using List.find?_some hf
        have hepar : (e.1 == parent) = false := by
          simp only [beq_eq_false_iff_ne]
          rw [hek]
          exact hkp
        rw [Option.map_some']
        have hge : (if (e.1 == parent) = true then (e.1, pushNew e.2 child) else e) = e := by
          rw [hepar]
          simp
        rw [hge]
    · rw [if_neg hfound]
      unfold childListOf
      cases hf : m.find? (fun e => e.1 == k) with
      | some e => rw [find?_append_of_some m _ _ e hf]
      | none =>
        rw [find?_append_of_none m _ _ hf]
        have hsingle : ([(parent, [child])].find? (fun e => e.1 == k)) = none := by
          have : (parent == k) = false := by
            simp only [beq_eq_false_iff_ne]
            exact fun hcon => hkp hcon.symm
          simp [this]
        rw [hsingle]

theorem childStep_deep (m : List (Str × List Str)) (x : Str)
    (h : 1 < (jsSplit x).length) :
    childStep m x = addChildSet m (dropLastSeg x) x := by
  simp only [childStep]
  rw [if_pos h]
  rfl

theorem childStep_shallow (m : List (Str × List Str)) (x : Str)
    (h : ¬ 1 < (jsSplit x).length) :
    childStep m x = m := by
  simp only [childStep]
  rw [if_neg h]

theorem childSets_spec : ∀ (paths : List Str) (m : List (Str × List Str)),
    paths.Nodup →
    (∀ q parent', q ∈ childListOf m parent' → q ∉ paths) →
    ∀ parent,
    childListOf (paths.foldl childStep m) parent =
      childListOf m parent ++
        paths.filter (fun q =>
          decide (1 < (jsSplit q).length) && (dropLastSeg q == parent)) := by
  intro paths
  induction paths with
  | nil =>
    intro m _ _ parent
    simp
  | cons x rest ih =>
    intro m hnodup hdisj parent
    have hx : x ∉ rest := (List.nodup_cons.mp hnodup).1
    have hrest : rest.Nodup := (List.nodup_cons.mp hnodup).2
    rw [List.foldl_cons, List.filter_cons]
    by_cases hdeep : 1 < (jsSplit x).length
    · have hnotin : x ∉ childListOf m (dropLastSeg x) :=
        fun hc => (hdisj x _ hc) (List.mem_cons_self x rest)
      have hdisj' : ∀ q parent',
          q ∈ childListOf (addChildSet m (dropLastSeg x) x) parent' → q ∉ rest := by
        intro q parent' hq
        rw [childListOf_addChildSet m _ x parent' hnotin] at hq
        by_cases hp : parent' = dropLastSeg x
        · rw [if_pos hp] at hq
          rcases List.mem_append.mp hq with h | h
          · exact fun hr => hdisj q parent' h (List.mem_cons_of_mem x hr)
          · have hqx : q = x := by simpa using h
            exact hqx ▸ hx
        · rw [if_neg hp] at hq
          exact fun hr => hdisj q parent' hq (List.mem_cons_of_mem x hr)
      rw [childStep_deep m x hdeep, ih _ hrest hdisj' parent,
        childListOf_addChildSet m _ x parent hnotin]
      have hpred : (decide (1 < (jsSplit x).length) && (dropLastSeg x == parent)) =
          (dropLastSeg x == parent) := by
        simp [hdeep]
      rw [hpred]
      by_cases hp : parent = dropLastSeg x
      · rw [if_pos hp]
        have : (dropLastSeg x == parent) = true := by simp [hp]
        rw [this]
        simp
      · rw [if_neg hp]
        have : (dropLastSeg x == parent) = false := by
          simp only [beq_eq_false_iff_ne]
          exact fun hcon => hp hcon.symm
        rw [this]
        simp
    · rw [childStep_shallow m x hdeep, ih _ hrest
        (fun q parent' hq hr => hdisj q parent' hq (List.mem_cons_of_mem x hr)) parent]
      have hpred : (decide (1 < (jsSplit x).length) && (dropLastSeg x == parent)) = false := by
        simp [hdeep]
      rw [hpred]
      simp

theorem childListOf_childSets (paths : List Str) (hnodup : paths.Nodup) (parent : Str) :
    childListOf (childSets paths) parent =
      paths.filter (fun q =>
        decide (1 < (jsSplit q).length) && (dropLastSeg q == parent)) := by
  unfold childSets
  rw [childSets_spec paths [] hnodup (by intro q parent' hq; cases hq) parent]
  rfl

theorem seedPct_spec (paths : List Str) (hnodup : paths.Nodup) (path : Str) :
    (seedPct paths path = 100 ∨ seedPct paths path = 0) ∧
    (seedPct paths path = 100 ↔ soleChildCond paths path) := by
  by_cases hdeep : 1 < (jsSplit path).length
  · have hpct : seedPct paths path =
        if (childListOf (childSets paths) (dropLastSeg path)).length = 1 then 100
        else 0 := by
      simp only [seedPct]
      rw [if_pos hdeep]
      unfold childListOf dropLastSeg
      cases hf : (childSets paths).find? (fun e => e.1 == jsJoin (jsSplit path).dropLast) with
      | none => simp
      | some e => rfl
    rw [hpct, childListOf_childSets paths hnodup]
    have hshallow : ¬ (jsSplit path).length = 1 := by omega
    constructor
    · by_cases hL : (paths.filter (fun q =>
          decide (1 < (jsSplit q).length) && (dropLastSeg q == dropLastSeg path))).length = 1
      · rw [if_pos hL]
        exact Or.inl rfl
      · rw [if_neg hL]
        exact Or.inr rfl
    · constructor
      · intro h100
        by_cases hL : (paths.filter (fun q =>
            decide (1 < (jsSplit q).length) && (dropLastSeg q == dropLastSeg path))).length = 1
        · exact Or.inl ⟨hdeep, hL⟩
        · rw [if_neg hL] at h100
          cases h100
      · rintro (⟨_, hL⟩ | ⟨h1, _⟩)
        · rw [if_pos hL]
        · exact absurd h1 hshallow
  · have h1 : (jsSplit path).length = 1 := by
      have := jsSplit_ne_nil path
      have hlen : 0 < (jsSplit path).length := List.length_pos.mpr this
      omega
    have hpct : seedPct paths path =
        if (paths.filter (fun p => (jsSplit p).length == 1)).length = 1 then 100
        else 0 := by
      simp only [seedPct]
      rw [if_neg hdeep]
    rw [hpct]
    constructor
    · by_cases hL : (paths.filter (fun p => (jsSplit p).length == 1)).length = 1
      · rw [if_pos hL]
        exact Or.inl rfl
      · rw [if_neg hL]
        exact Or.inr rfl
    · constructor
      · intro h100
        by_cases hL : (paths.filter (fun p => (jsSplit p).length == 1)).length = 1
        · exact Or.inr ⟨h1, hL⟩
        · rw [if_neg hL] at h100
          cases h100
      · rintro (⟨hd, _⟩ | ⟨_, hL⟩)
        · exact absurd hd hdeep
        · rw [if_pos hL]

/-- Claim C5 (corrected), counterexample: for one hierarchy column and
one SKU `S1` under category `A`, the Tree Builder derives the SKU-leaf
path `A/S1`, but the placeholder seeding creates a row only for the
intermediate path `A` — the known path `A/S1` is left without a seeded
row. -/
theorem claim5_counterexample :
    (str ("A/S1")) ∈ keysOf (buildState [] [str ("cat")] [skuPlain]) ∧
    (placeholderAllocations [skuPlain] [str ("cat")] (str ("Q1"))).map (·.hierarchyPath) =
      [str ("A")] ∧
    ∀ row ∈ placeholderAllocations [skuPlain] [str ("cat")] (str ("Q1")),
      row.hierarchyPath ≠ str ("A/S1") := by
  refine ⟨by decide, by decide, by decide⟩

/-- Claim C5 (corrected, amended): the placeholder rows synthesized on
period creation cover exactly the *complete-prefix intermediate* paths —
those at levels `1..defs.length` for which the SKU has a value at every
level up to that depth — never SKU-leaf paths and never gapped paths.
Every seeded row has amount 0 and quantity 0, carries the new period,
stores the path's segment count as its level, and its percentage is 100
exactly when the path is the sole seeded child of its parent (or the
sole seeded root path), else 0. -/
theorem claim5_amended (skus : List Sku) (defs : List Str) (period : Str) :
    (∀ row ∈ placeholderAllocations skus defs period,
      row.amount = 0 ∧ row.quantity = 0 ∧ row.period = some period ∧
      row.level = (jsSplit row.hierarchyPath).length ∧
      (row.percentage = 100 ∨ row.percentage = 0) ∧
      (row.percentage = 100 ↔ soleChildCond (seedPaths skus defs) row.hierarchyPath)) ∧
    (∀ p : Str, (∃ row ∈ placeholderAllocations skus defs period, row.hierarchyPath = p) ↔
      ∃ sku ∈ skus, ∃ L, 1 ≤ L ∧ L ≤ defs.length ∧ completePath sku defs L = some p) := by
  constructor
  · intro row hrow
    obtain ⟨path, hpath, hmk⟩ := List.mem_map.mp hrow
    subst hmk
    refine ⟨rfl, rfl, rfl, rfl, ?_, ?_⟩
    · exact (seedPct_spec (seedPaths skus defs) (seedPaths_nodup skus defs) path).1
    · exact (seedPct_spec (seedPaths skus defs) (seedPaths_nodup skus defs) path).2
  · intro p
    constructor
    · rintro ⟨row, hrow, hp⟩
      obtain ⟨path, hpath, hmk⟩ := List.mem_map.mp hrow
      subst hmk
      exact (mem_seedPaths skus defs p).mp (hp ▸ hpath)
    · intro hex
      have hp : p ∈ seedPaths skus defs := (mem_seedPaths skus defs p).mpr hex
      exact ⟨_, List.mem_map_of_mem _ hp, rfl⟩

theorem claim5_witness :
    (∃ row ∈ placeholderAllocations [skuPlain] [str ("cat")] (str ("Q1")),
      row.hierarchyPath = str ("A")) ∧
    ((⟨str ("A"), 1, 100, 0, 0, some (str ("Q1"))⟩ : Allocation).percentage = 100 ↔
      soleChildCond (seedPaths [skuPlain] [str ("cat")]) (str ("A"))) := by
  have h := claim5_amended [skuPlain] [str ("cat")] (str ("Q1"))
  constructor
  · exact (h.2 (str ("A"))).mpr ⟨skuPlain, by decide, 1, by decide, by decide, by decide⟩
  · have hrow := (h.1 (⟨str ("A"), 1, 100, 0, 0, some (str ("Q1"))⟩ : Allocation) (by decide))
    simpa using hrow.2.2.2.2.2

theorem sum_map_add {α : Type} (L : List α) (a b : α → Nat) :
    (L.map (fun k => a k + b k)).sum = (L.map a).sum + (L.map b).sum := by
  induction L with
  | nil => rfl
  | cons x xs ih =>
    simp only [List.map_cons, List.sum_cons, ih]
    omega

theorem sum_swap {α β : Type} (L : List α) (K : List β) (h : β → α → Nat) :
    (L.map (fun k => (K.map (fun p => h p k)).sum)).sum
      = (K.map (fun p => (L.map (fun k => h p k)).sum)).sum := by
  induction L with
  | nil => simp
  | cons x xs ih =>
    simp only [List.map_cons, List.sum_cons, ih, ← sum_map_add]

theorem sum_ite_single {α : Type} [BEq α] [LawfulBEq α] [DecidableEq α] (K : List α) (k : α) (g : α → Nat)
    (hnd : K.Nodup) :
    (K.map (fun p => (if k == p then 1 else 0) * g p)).sum
      = if k ∈ K then g k else 0 := by
  induction K with
  | nil => simp
  | cons x xs ih =>
    have hx : x ∉ xs := (List.nodup_cons.mp hnd).1
    have ih2 := ih (List.nodup_cons.mp hnd).2
    by_cases hk : k = x
    · subst hk
      simp only [List.map_cons, List.sum_cons, beq_self_eq_true, if_pos rfl, one_mul, ih2,
        if_neg hx, List.mem_cons, true_or, if_pos]
      omega
    · have hb : (k == x) = false := beq_eq_false_iff_ne.mpr hk
      simp only [List.map_cons, List.sum_cons, hb, Bool.false_eq_true, if_false, zero_mul,
        zero_add, ih2, List.mem_cons]
      simp [hk]

theorem sum_ite_count {α : Type} [BEq α] [LawfulBEq α] (L : List α) (q : α) :
    (L.map (fun k => if k == q then 1 else 0)).sum = List.count q L := by
  induction L with
  | nil => rfl
  | cons x xs ih =>
    simp only [List.map_cons, List.sum_cons, ih, List.count_cons]
    omega

theorem sum_count_regroup {α : Type} [BEq α] [LawfulBEq α] [DecidableEq α] (K : List α) (g : α → Nat)
    (hnd : K.Nodup) (hsupp : ∀ k, k ∉ K → g k = 0) :
    ∀ L : List α, (L.map g).sum = (K.map (fun p => List.count p L * g p)).sum := by
  intro L
  induction L with
  | nil => simp
  | cons x xs ih =>
    have hdist : (K.map (fun p => List.count p (x :: xs) * g p)).sum
        = (K.map (fun p => List.count p xs * g p)).sum
          + (K.map (fun p => (if x == p then 1 else 0) * g p)).sum := by
      rw [← sum_map_add]
      apply congrArg
      apply List.map_congr_left
      intro p _
      rw [List.count_cons]
      ring
    rw [List.map_cons, List.sum_cons, ih, hdist, sum_ite_single K x g hnd]
    by_cases hx : x ∈ K
    · simp only [if_pos hx]
      omega
    · simp only [if_neg hx, hsupp x hx]
      omega

theorem jsJoin_dropLast_length :
    ∀ l : List Str, jsJoin l ≠ [] → (jsJoin l.dropLast).length < (jsJoin l).length := by
  intro l
  induction l with
  | nil => intro h; exact absurd rfl h
  | cons x t ih =>
    intro h
    cases t with
    | nil =>
      simp only [List.dropLast_single, jsJoin]
      have : x ≠ [] := h
      cases x with
      | nil => exact absurd rfl this
      | cons c cs => simp [jsJoin]
    | cons y ys =>
      cases ys with
      | nil =>
        simp [jsJoin]
      | cons z zs =>
        have hd : (y :: z :: zs).dropLast ≠ [] := by
          simp [List.dropLast_cons₂]
        have hy : jsJoin (y :: z :: zs) ≠ [] := by
          rw [jsJoin_cons_of_ne_nil y (z :: zs) (by simp)]
          simp
        have hih := ih hy
        rw [List.dropLast_cons₂, jsJoin_cons_of_ne_nil x _ hd,
          jsJoin_cons_of_ne_nil x (y :: z :: zs) (by simp)]
        simp only [List.length_append, List.length_cons]
        omega

theorem dropLastSeg_ne (s : Str) (h : s ≠ []) : dropLastSeg s ≠ s := by
  have hj : jsJoin (jsSplit s) = s := jsJoin_jsSplit s
  have hlen := jsJoin_dropLast_length (jsSplit s) (by rw [hj]; exact h)
  rw [hj] at hlen
  intro heq
  rw [show dropLastSeg s = jsJoin (jsSplit s).dropLast from rfl] at heq
  rw [heq] at hlen
  omega

theorem foldl_inv {σ α : Type} (P : σ → Prop) (f : σ → α → σ) (l : List α)
    (hstep : ∀ s a, a ∈ l → P s → P (f s a)) : ∀ s, P s → P (l.foldl f s) := by
  induction l with
  | nil => intro s hs; exact hs
  | cons x xs ih =>
    intro s hs
    exact ih (fun s a ha => hstep s a (List.mem_cons_of_mem x ha))
      (f s x) (hstep s x (List.mem_cons_self x xs) hs)

theorem findKey_isSome (m : List (Str × NodeEntry)) (k : Str) :
    (m.find? (fun e => e.1 == k)).isSome = true ↔ k ∈ m.map (·.1) := by
  rw [List.find?_isSome]
  constructor
  · rintro ⟨e, he, hb⟩
    exact List.mem_map.mpr ⟨e, he, beq_iff_eq.mp hb⟩
  · intro hk
    obtain ⟨e, he, hek⟩ := List.mem_map.mp hk
    exact ⟨e, he, beq_iff_eq.mpr hek⟩

theorem find_self (m : List (Str × NodeEntry)) (hnd : (m.map (·.1)).Nodup) :
    ∀ e ∈ m, m.find? (fun x => x.1 == e.1) = some e := by
  induction m with
  | nil => intro e he; exact absurd he (List.not_mem_nil e)
  | cons a as ih =>
    intro e he
    have hnd2 : (as.map (·.1)).Nodup := (List.nodup_cons.mp hnd).2
    have ha1 : a.1 ∉ as.map (·.1) := (List.nodup_cons.mp hnd).1
    rcases List.mem_cons.mp he with he1 | he2
    · subst he1
      simp [List.find?_cons]
    · have hne : (a.1 == e.1) = false := by
        apply beq_eq_false_iff_ne.mpr
        intro hq
        exact ha1 (hq ▸ List.mem_map.mpr ⟨e, he2, rfl⟩)
      simp only [List.find?_cons, hne]
      exact ih hnd2 e he2

theorem find?_map_keyfix {β : Type} (m : List (Str × β)) (g : Str × β → Str × β)
    (hg : ∀ e, (g e).1 = e.1) (k : Str) :
    (m.map g).find? (fun e => e.1 == k) = (m.find? (fun e => e.1 == k)).map g := by
  induction m with
  | nil => rfl
  | cons a as ih =>
    have hga : ((g a).1 == k) = (a.1 == k) := by rw [hg a]
    cases hp : (a.1 == k) with
    | true => simp only [List.map_cons, List.find?_cons, hga, hp]; rfl
    | false => simp only [List.map_cons, List.find?_cons, hga, hp, ih]

theorem attachChild_keys (m : List (Str × NodeEntry)) (p c : Str) :
    (attachChild m p c).map (·.1) = m.map (·.1) := by
  unfold attachChild
  split
  · rw [List.map_map]
    apply List.map_congr_left
    intro a _
    by_cases h : a.1 = p <;> simp [h]
  · rfl

theorem childrenOf_attach (m : List (Str × NodeEntry)) (p c k : Str) :
    childrenOf (attachChild m p c) k =
      if k = p ∧ (m.find? (fun e => e.1 == p)).isSome = true
      then childrenOf m k ++ [c] else childrenOf m k := by
  unfold attachChild childrenOf
  cases hs : (m.find? (fun e => e.1 == p)).isSome with
  | false => simp [hs]
  | true =>
    simp only [hs, if_true, and_true]
    rw [find?_map_keyfix _ _ (fun e => by by_cases h : e.1 = p <;> simp [h]) k]
    by_cases hkp : k = p
    · rw [if_pos hkp, hkp]
      obtain ⟨e, he⟩ := Option.isSome_iff_exists.mp hs
      have h1 := List.find?_some he
      simp only [beq_iff_eq] at h1
      simp [he, h1]
    · rw [if_neg hkp]
      cases hf : m.find? (fun e => e.1 == k) with
      | none => simp [hf]
      | some e =>
        have h1 := List.find?_some hf
        simp only [beq_iff_eq] at h1
        have hne : ¬ e.1 = p := h1 ▸ hkp
        simp [hf, hne]

theorem mem_attachChild (m : List (Str × NodeEntry)) (p c : Str) :
    ∀ e' ∈ attachChild m p c, ∃ e ∈ m, e'.1 = e.1 ∧
      (e'.2.children = e.2.children ∨ (e'.2.children = e.2.children ++ [c] ∧ e.1 = p)) := by
  unfold attachChild
  split
  · intro e' he'
    obtain ⟨e, he, hge⟩ := List.mem_map.mp he'
    cases hb : (e.1 == p) with
    | true =>
      have h : e.1 = p := beq_iff_eq.mp hb
      refine ⟨e, he, ?_, Or.inr ⟨?_, h⟩⟩ <;> rw [← hge] <;> simp [hb]
    | false =>
      refine ⟨e, he, ?_, Or.inl ?_⟩ <;> rw [← hge] <;> simp [hb]
  · intro e' he'
    exact ⟨e', he', rfl, Or.inl rfl⟩

theorem sum_key_zero {β : Type} (m : List (Str × β)) (p : Str) (x : Nat)
    (h : p ∉ m.map (·.1)) :
    (m.map (fun e => if e.1 = p then x else 0)).sum = 0 := by
  apply List.sum_eq_zero
  intro y hy
  obtain ⟨e, he, hey⟩ := List.mem_map.mp hy
  have : ¬ e.1 = p := fun hq => h (List.mem_map.mpr ⟨e, he, hq⟩)
  rw [← hey, if_neg this]

theorem sum_ite_key_le {β : Type} (m : List (Str × β)) (p : Str) (x : Nat)
    (hnd : (m.map (·.1)).Nodup) :
    (m.map (fun e => if e.1 = p then x else 0)).sum ≤ x := by
  induction m with
  | nil => simp
  | cons a as ih =>
    have hnd2 : (as.map (·.1)).Nodup := (List.nodup_cons.mp hnd).2
    have ha1 : a.1 ∉ as.map (·.1) := (List.nodup_cons.mp hnd).1
    simp only [List.map_cons, List.sum_cons]
    by_cases h : a.1 = p
    · rw [if_pos h, sum_key_zero as p x (h ▸ ha1)]
      omega
    · rw [if_neg h]
      have := ih hnd2
      omega

theorem sum_count_attach (m : List (Str × NodeEntry)) (p c : Str) (q : Str)
    (hnd : (m.map (·.1)).Nodup) :
    ((attachChild m p c).map (fun e => List.count q e.2.children)).sum
      ≤ (m.map (fun e => List.count q e.2.children)).sum + (if q = c then 1 else 0) := by
  unfold attachChild
  split
  · rw [List.map_map]
    trans ((m.map (fun e => List.count q e.2.children
        + (if e.1 = p then (if q = c then 1 else 0) else 0))).sum)
    · apply List.sum_le_sum
      intro e he
      simp only [Function.comp_apply]
      cases hb : (e.1 == p) with
      | true =>
        have h : e.1 = p := beq_iff_eq.mp hb
        by_cases hqc : q = c
        · subst hqc
          simp [hb, h, List.count_append]
        · have hcq : (c == q) = false := beq_eq_false_iff_ne.mpr (Ne.symm hqc)
          simp [hb, h, List.count_append, hqc, hcq]
      | false =>
        have h : ¬ e.1 = p := beq_eq_false_iff_ne.mp hb
        simp [hb, h]
    · rw [sum_map_add]
      have := sum_ite_key_le m p (if q = c then 1 else 0) hnd
      omega
  · omega

theorem emit_count_succ (m : List (Str × NodeEntry)) (f : Nat) (L : List Str) (q : Str) :
    List.count q (emitPaths m (f + 1) L)
      = List.count q L
        + (L.map (fun k => List.count q (emitPaths m f (childrenOf m k)))).sum := by
  show List.count q ((L.map (fun k => k :: emitPaths m f (childrenOf m k))).flatten) = _
  rw [List.count_flatten, List.map_map]
  have hpt : L.map ((List.count q) ∘ (fun k => k :: emitPaths m f (childrenOf m k)))
      = L.map (fun k => List.count q (emitPaths m f (childrenOf m k))
          + (if k == q then 1 else 0)) := by
    apply List.map_congr_left
    intro k _
    simp only [Function.comp_apply, List.count_cons]
  rw [hpt, sum_map_add, sum_ite_count]
  omega

theorem emit_count_rec (m : List (Str × NodeEntry)) (keys : List Str)
    (hnd : keys.Nodup) (hsupp : ∀ k, k ∉ keys → childrenOf m k = []) :
    ∀ f L q, List.count q (emitPaths m f L) ≤
      List.count q L + (keys.map (fun p =>
        List.count q (childrenOf m p) * List.count p (emitPaths m f L))).sum := by
  intro f
  induction f with
  | zero =>
    intro L q
    show List.count q [] ≤ _
    simp
  | succ f ih =>
    intro L q
    rw [emit_count_succ]
    have step1 : (L.map (fun k => List.count q (emitPaths m f (childrenOf m k)))).sum
        ≤ (L.map (fun k => List.count q (childrenOf m k)
            + (keys.map (fun p => List.count q (childrenOf m p)
                * List.count p (emitPaths m f (childrenOf m k)))).sum)).sum := by
      apply List.sum_le_sum
      intro k _
      exact ih (childrenOf m k) q
    rw [sum_map_add] at step1
    have reg1 : (L.map (fun k => List.count q (childrenOf m k))).sum
        = (keys.map (fun p => List.count p L * List.count q (childrenOf m p))).sum := by
      apply sum_count_regroup keys (fun k => List.count q (childrenOf m k)) hnd
      intro k hk
      rw [hsupp k hk]
      rfl
    have reg2 : (L.map (fun k => (keys.map (fun p => List.count q (childrenOf m p)
            * List.count p (emitPaths m f (childrenOf m k)))).sum)).sum
        = (keys.map (fun p => List.count q (childrenOf m p)
            * (L.map (fun k => List.count p (emitPaths m f (childrenOf m k)))).sum)).sum := by
      rw [sum_swap]
      apply congrArg
      apply List.map_congr_left
      intro p _
      rw [← List.sum_map_mul_left]
    have expand : (keys.map (fun p => List.count q (childrenOf m p)
          * List.count p (emitPaths m (f + 1) L))).sum
        = (keys.map (fun p => List.count q (childrenOf m p) * List.count p L)).sum
          + (keys.map (fun p => List.count q (childrenOf m p)
              * (L.map (fun k => List.count p (emitPaths m f (childrenOf m k)))).sum)).sum := by
      rw [← sum_map_add]
      apply congrArg
      apply List.map_congr_left
      intro p _
      rw [emit_count_succ]
      ring
    have comm : (keys.map (fun p => List.count p L * List.count q (childrenOf m p))).sum
        = (keys.map (fun p => List.count q (childrenOf m p) * List.count p L)).sum := by
      apply congrArg
      apply List.map_congr_left
      intro p _
      ring
    rw [expand]
    rw [reg1, comm] at step1
    rw [reg2] at step1
    omega

theorem childrenOf_not_key (m : List (Str × NodeEntry)) (k : Str)
    (hk : k ∉ m.map (·.1)) : childrenOf m k = [] := by
  unfold childrenOf
  cases hf : m.find? (fun e => e.1 == k) with
  | none => rfl
  | some e =>
    have h1 := List.find?_some hf
    simp only [beq_iff_eq] at h1
    have h2 : e ∈ m := List.mem_of_find?_eq_some hf
    exact absurd (List.mem_map.mpr ⟨e, h2, h1⟩) (h1 ▸ hk)

theorem childrenOf_eq_of_mem (m : List (Str × NodeEntry))
    (hnd : (m.map (·.1)).Nodup) (e : Str × NodeEntry) (he : e ∈ m) :
    childrenOf m e.1 = e.2.children := by
  unfold childrenOf
  rw [find_self m hnd e he]

theorem emit_count_le_one (m : List (Str × NodeEntry)) (roots : List Str)
    (hnd : (m.map (·.1)).Nodup)
    (hcnt : ∀ q, List.count q roots + (m.map (fun e => List.count q e.2.children)).sum ≤ 1)
    (hrank : ∀ e ∈ m, ∀ c ∈ e.2.children,
      List.indexOf e.1 (m.map (·.1)) < List.indexOf c (m.map (·.1))) :
    ∀ f q, List.count q (emitPaths m f roots) ≤ 1 := by
  have hsupp : ∀ k, k ∉ m.map (·.1) → childrenOf m k = [] := fun k hk =>
    childrenOf_not_key m k hk
  have hkeys : ∀ q, (m.map (·.1)).map (fun p => List.count q (childrenOf m p))
      = m.map (fun e => List.count q e.2.children) := by
    intro q
    rw [List.map_map]
    apply List.map_congr_left
    intro e he
    simp only [Function.comp_apply]
    rw [childrenOf_eq_of_mem m hnd e he]
  have hrank2 : ∀ p q : Str, List.count q (childrenOf m p) ≠ 0 →
      List.indexOf p (m.map (·.1)) < List.indexOf q (m.map (·.1)) := by
    intro p q hc
    have hq : q ∈ childrenOf m p := by
      by_contra hq
      exact hc (List.count_eq_zero.mpr hq)
    unfold childrenOf at hq
    cases hf : m.find? (fun e => e.1 == p) with
    | none => rw [hf] at hq; exact absurd hq (List.not_mem_nil q)
    | some e =>
      rw [hf] at hq
      have h1 := List.find?_some hf
      simp only [beq_iff_eq] at h1
      have h2 : e ∈ m := List.mem_of_find?_eq_some hf
      exact h1 ▸ hrank e h2 q hq
  have key : ∀ n, ∀ q, List.indexOf q (m.map (·.1)) ≤ n →
      ∀ f, List.count q (emitPaths m f roots) ≤ 1 := by
    intro n
    induction n using Nat.strong_induction_on with
    | _ n ih =>
      intro q hq f
      have hrec := emit_count_rec m (m.map (·.1)) hnd hsupp f roots q
      have hterm : ((m.map (·.1)).map (fun p =>
          List.count q (childrenOf m p) * List.count p (emitPaths m f roots))).sum
          ≤ ((m.map (·.1)).map (fun p => List.count q (childrenOf m p))).sum := by
        apply List.sum_le_sum
        intro p _
        by_cases hc : List.count q (childrenOf m p) = 0
        · rw [hc]
          omega
        · have hlt := hrank2 p q hc
          have hple : List.indexOf p (m.map (·.1)) < n := by omega
          have hp1 := ih (List.indexOf p (m.map (·.1))) hple p (le_refl _) f
          calc List.count q (childrenOf m p) * List.count p (emitPaths m f roots)
              ≤ List.count q (childrenOf m p) * 1 := Nat.mul_le_mul_left _ hp1
            _ = List.count q (childrenOf m p) := Nat.mul_one _
      have hfin := hcnt q
      rw [← hkeys q] at hfin
      omega
  intro f q
  exact key (List.indexOf q (m.map (·.1))) q (le_refl _) f

theorem inv_fresh_zero (st : BuildState) (hinv : BuildInv st) (q : Str)
    (hq : q ∉ keysOf st) :
    List.count q st.roots = 0 ∧
      (st.nodeMap.map (fun e => List.count q e.2.children)).sum = 0 := by
  constructor
  · apply List.count_eq_zero.mpr
    intro hr
    exact hq (hinv.rootsKeys q hr)
  · apply List.sum_eq_zero
    intro y hy
    obtain ⟨e, he, hey⟩ := List.mem_map.mp hy
    rw [← hey]
    apply List.count_eq_zero.mpr
    intro hc
    exact hq (hinv.childKeys e he q hc)

theorem keys_append_nodup (st : BuildState) (path : Str) (entry : NodeEntry)
    (hfresh : path ∉ keysOf st) (hinv : BuildInv st) :
    ((st.nodeMap ++ [(path, entry)]).map (·.1)).Nodup := by
  rw [List.map_append]
  rw [List.nodup_append]
  refine ⟨hinv.keysNodup, List.nodup_singleton _, ?_⟩
  intro x hx
  simp only [List.map_cons, List.map_nil, List.mem_cons, List.not_mem_nil, or_false]
  intro hxp
  exact hfresh (hxp ▸ hx)

theorem indexOf_append_mem {α : Type} [BEq α] [LawfulBEq α] (x : α) :
    ∀ (l₁ l₂ : List α), x ∈ l₁ → List.indexOf x (l₁ ++ l₂) = List.indexOf x l₁ := by
  intro l₁
  induction l₁ with
  | nil => intro l₂ h; exact absurd h (List.not_mem_nil x)
  | cons a as ih =>
    intro l₂ h
    rw [List.cons_append, List.indexOf_cons, List.indexOf_cons]
    cases hb : (a == x) with
    | true => simp
    | false =>
      have hx : x ∈ as := by
        rcases List.mem_cons.mp h with h1 | h1
        · rw [h1] at hb
          simp at hb
        · exact h1
      simp [hb, ih l₂ hx]

theorem indexOf_append_not_mem {α : Type} [BEq α] [LawfulBEq α] (x : α) :
    ∀ (l₁ l₂ : List α), x ∉ l₁ →
      List.indexOf x (l₁ ++ l₂) = l₁.length + List.indexOf x l₂ := by
  intro l₁
  induction l₁ with
  | nil => intro l₂ h; simp
  | cons a as ih =>
    intro l₂ h
    have ha : (a == x) = false := by
      apply beq_eq_false_iff_ne.mpr
      intro hq
      exact h (hq ▸ List.mem_cons_self a as)
    rw [List.cons_append, List.indexOf_cons]
    have hx : x ∉ as := fun hq => h (List.mem_cons_of_mem a hq)
    simp only [ha, cond_false, ih l₂ hx, List.length_cons]
    omega

theorem indexOf_lt_length_of_mem {α : Type} [BEq α] [LawfulBEq α] (x : α) :
    ∀ l : List α, x ∈ l → List.indexOf x l < l.length := by
  intro l
  induction l with
  | nil => intro h; exact absurd h (List.not_mem_nil x)
  | cons a as ih =>
    intro h
    rw [List.indexOf_cons]
    cases hb : (a == x) with
    | true => simp
    | false =>
      have hx : x ∈ as := by
        rcases List.mem_cons.mp h with h1 | h1
        · rw [h1] at hb
          simp at hb
        · exact h1
      have := ih hx
      simp only [hb, cond_false, List.length_cons]
      omega

theorem indexOf_stable (keys : List Str) (path x : Str) (hx : x ∈ keys) :
    List.indexOf x (keys ++ [path]) = List.indexOf x keys :=
  indexOf_append_mem x keys [path] hx

theorem insertRoot_inv (st : BuildState) (path : Str) (entry : NodeEntry)
    (hch : entry.children = [])
    (hfresh : path ∉ keysOf st)
    (hinv : BuildInv st) :
    BuildInv ⟨st.nodeMap ++ [(path, entry)], st.roots ++ [path]⟩ := by
  have hkeys : keysOf ⟨st.nodeMap ++ [(path, entry)], st.roots ++ [path]⟩
      = keysOf st ++ [path] := by
    show (st.nodeMap ++ [(path, entry)]).map (·.1) = _
    rw [List.map_append]
    rfl
  constructor
  · rw [hkeys]
    have := keys_append_nodup st path entry hfresh hinv
    rw [List.map_append] at this
    exact this
  · intro q
    show List.count q (st.roots ++ [path])
        + ((st.nodeMap ++ [(path, entry)]).map (fun e => List.count q e.2.children)).sum ≤ 1
    rw [List.count_append, List.map_append, List.sum_append]
    simp only [List.map_cons, List.map_nil, List.sum_cons, List.sum_nil, hch,
      List.count_nil]
    by_cases hq : q = path
    · subst hq
      obtain ⟨h1, h2⟩ := inv_fresh_zero st hinv q hfresh
      have h3 : List.count q [q] = 1 := by simp
      omega
    · have : List.count q [path] = 0 := by
        apply List.count_eq_zero.mpr
        simp [hq]
      have hc := hinv.cnt1 q
      omega
  · intro r hr
    rw [hkeys]
    rcases List.mem_append.mp hr with h | h
    · exact List.mem_append_left _ (hinv.rootsKeys r h)
    · exact List.mem_append_right _ h
  · intro e he c hc
    rw [hkeys]
    rcases List.mem_append.mp he with h | h
    · exact List.mem_append_left _ (hinv.childKeys e h c hc)
    · have : e = (path, entry) := List.mem_singleton.mp h
      rw [this, hch] at hc
      exact absurd hc (List.not_mem_nil c)
  · intro e he c hc
    rw [hkeys]
    rcases List.mem_append.mp he with h | h
    · rw [indexOf_stable (keysOf st) path e.1
          (List.mem_map.mpr ⟨e, h, rfl⟩ : e.1 ∈ keysOf st),
        indexOf_stable (keysOf st) path c (hinv.childKeys e h c hc)]
      exact hinv.childRank e h c hc
    · have : e = (path, entry) := List.mem_singleton.mp h
      rw [this, hch] at hc
      exact absurd hc (List.not_mem_nil c)

theorem insertAttach_inv (st : BuildState) (path parent : Str) (entry : NodeEntry)
    (hch : entry.children = [])
    (hfresh : path ∉ keysOf st)
    (hne : parent ≠ path)
    (hinv : BuildInv st) :
    BuildInv ⟨attachChild (st.nodeMap ++ [(path, entry)]) parent path, st.roots⟩ := by
  have hnd' : ((st.nodeMap ++ [(path, entry)]).map (·.1)).Nodup :=
    keys_append_nodup st path entry hfresh hinv
  have hkeys : keysOf ⟨attachChild (st.nodeMap ++ [(path, entry)]) parent path, st.roots⟩
      = keysOf st ++ [path] := by
    show (attachChild (st.nodeMap ++ [(path, entry)]) parent path).map (·.1) = _
    rw [attachChild_keys, List.map_append]
    rfl
  have hmem' : ∀ e' ∈ attachChild (st.nodeMap ++ [(path, entry)]) parent path,
      ∃ e ∈ st.nodeMap ++ [(path, entry)], e'.1 = e.1 ∧
        (e'.2.children = e.2.children ∨
          (e'.2.children = e.2.children ++ [path] ∧ e.1 = parent)) :=
    mem_attachChild _ parent path
  constructor
  · rw [hkeys]
    have h2 := hnd'
    rw [List.map_append] at h2
    exact h2
  · intro q
    show List.count q st.roots
        + ((attachChild (st.nodeMap ++ [(path, entry)]) parent path).map
            (fun e => List.count q e.2.children)).sum ≤ 1
    have hsle := sum_count_attach (st.nodeMap ++ [(path, entry)]) parent path q hnd'
    have hsm : ((st.nodeMap ++ [(path, entry)]).map
        (fun e => List.count q e.2.children)).sum
        = (st.nodeMap.map (fun e => List.count q e.2.children)).sum := by
      rw [List.map_append, List.sum_append]
      simp [hch]
    rw [hsm] at hsle
    by_cases hq : q = path
    · subst hq
      obtain ⟨h1, h2⟩ := inv_fresh_zero st hinv q hfresh
      rw [if_pos rfl] at hsle
      omega
    · rw [if_neg hq] at hsle
      have hc := hinv.cnt1 q
      omega
  · intro r hr
    rw [hkeys]
    exact List.mem_append_left _ (hinv.rootsKeys r hr)
  · intro e' he' c hc
    rw [hkeys]
    obtain ⟨e, he, he1, hcase⟩ := hmem' e' he'
    have hsplit : e ∈ st.nodeMap ∨ e = (path, entry) := by
      rcases List.mem_append.mp he with h | h
      · exact Or.inl h
      · exact Or.inr (List.mem_singleton.mp h)
    rcases hcase with hsame | ⟨hnew, hep⟩
    · rw [hsame] at hc
      rcases hsplit with h | h
      · exact List.mem_append_left _ (hinv.childKeys e h c hc)
      · rw [h, hch] at hc
        exact absurd hc (List.not_mem_nil c)
    · rw [hnew] at hc
      rcases List.mem_append.mp hc with h1 | h1
      · rcases hsplit with h | h
        · exact List.mem_append_left _ (hinv.childKeys e h c h1)
        · rw [h, hch] at h1
          exact absurd h1 (List.not_mem_nil c)
      · rw [List.mem_singleton.mp h1]
        exact List.mem_append_right _ (List.mem_singleton.mpr rfl)
  · intro e' he' c hc
    rw [hkeys]
    obtain ⟨e, he, he1, hcase⟩ := hmem' e' he'
    rw [he1]
    have hsplit : e ∈ st.nodeMap ∨ e = (path, entry) := by
      rcases List.mem_append.mp he with h | h
      · exact Or.inl h
      · exact Or.inr (List.mem_singleton.mp h)
    have hold : ∀ c', c' ∈ e.2.children → e ∈ st.nodeMap →
        List.indexOf e.1 (keysOf st ++ [path]) < List.indexOf c' (keysOf st ++ [path]) := by
      intro c' hc' hm
      rw [indexOf_stable (keysOf st) path e.1
          (List.mem_map.mpr ⟨e, hm, rfl⟩ : e.1 ∈ keysOf st),
        indexOf_stable (keysOf st) path c' (hinv.childKeys e hm c' hc')]
      exact hinv.childRank e hm c' hc'
    rcases hcase with hsame | ⟨hnew, hep⟩
    · rw [hsame] at hc
      rcases hsplit with h | h
      · exact hold c hc h
      · rw [h, hch] at hc
        exact absurd hc (List.not_mem_nil c)
    · have hem : e ∈ st.nodeMap := by
        rcases hsplit with h | h
        · exact h
        · rw [h] at hep
          exact absurd hep.symm hne
      rw [hnew] at hc
      rcases List.mem_append.mp hc with h1 | h1
      · exact hold c h1 hem
      · rw [List.mem_singleton.mp h1]
        have hplen : List.indexOf path (keysOf st ++ [path])
            = (keysOf st).length := by
          rw [indexOf_append_not_mem path (keysOf st) [path] hfresh,
            List.indexOf_cons]
          simp
        rw [hplen, hep]
        have hpk : parent ∈ keysOf st := List.mem_map.mpr ⟨e, hem, hep ▸ rfl⟩
        rw [indexOf_stable (keysOf st) path parent hpk]
        exact indexOf_lt_length_of_mem parent (keysOf st) hpk

theorem append_cdl (st : BuildState) (path : Str) (entry : NodeEntry) (r : List Str)
    (hch : entry.children = []) (hcdl : ChildrenDropLast st) :
    ChildrenDropLast ⟨st.nodeMap ++ [(path, entry)], r⟩ := by
  intro e he c hc
  rcases List.mem_append.mp he with h | h
  · exact hcdl e h c hc
  · rw [List.mem_singleton.mp h, hch] at hc
    exact absurd hc (List.not_mem_nil c)

theorem attach_cdl (st : BuildState) (path parent : Str) (entry : NodeEntry) (r : List Str)
    (hch : entry.children = []) (hdp : dropLastSeg path = parent)
    (hcdl : ChildrenDropLast st) :
    ChildrenDropLast ⟨attachChild (st.nodeMap ++ [(path, entry)]) parent path, r⟩ := by
  intro e' he' c hc
  obtain ⟨e, he, he1, hcase⟩ := mem_attachChild _ parent path e' he'
  have hbase : ∀ c', c' ∈ e.2.children → dropLastSeg c' = e.1 := by
    intro c' hc'
    rcases List.mem_append.mp he with h | h
    · exact hcdl e h c' hc'
    · rw [List.mem_singleton.mp h, hch] at hc'
      exact absurd hc' (List.not_mem_nil c')
  rw [he1]
  rcases hcase with hsame | ⟨hnew, hep⟩
  · rw [hsame] at hc
    exact hbase c hc
  · rw [hnew] at hc
    rcases List.mem_append.mp hc with h1 | h1
    · exact hbase c h1
    · rw [List.mem_singleton.mp h1, hdp, hep]

theorem insertLevelNode_inv (allocs : List Allocation) (st : BuildState) (path : Str)
    (level : Nat) (hinv : BuildInv st) :
    BuildInv (insertLevelNode allocs st path level) := by
  unfold insertLevelNode
  by_cases h0 : path = []
  · rw [if_pos h0]
    exact hinv
  · rw [if_neg h0]
    cases hs : (st.nodeMap.find? (fun e => e.1 == path)).isSome with
    | true =>
      rw [if_pos rfl]
      exact hinv
    | false =>
      rw [if_neg Bool.false_ne_true]
      have hfresh : path ∉ keysOf st := by
        intro hmem
        have h2 : (st.nodeMap.find? (fun e => e.1 == path)).isSome = true :=
          (findKey_isSome st.nodeMap path).mpr hmem
        rw [hs] at h2
        exact Bool.false_ne_true h2
      by_cases hl : level = 1
      · rw [if_pos hl]
        exact insertRoot_inv st path _ rfl hfresh hinv
      · rw [if_neg hl]
        exact insertAttach_inv st path (jsJoin (jsSplit path).dropLast) _ rfl hfresh
          (dropLastSeg_ne path h0) hinv

theorem insertLevelNode_cdl (allocs : List Allocation) (st : BuildState) (path : Str)
    (level : Nat) (hcdl : ChildrenDropLast st) :
    ChildrenDropLast (insertLevelNode allocs st path level) := by
  unfold insertLevelNode
  by_cases h0 : path = []
  · rw [if_pos h0]
    exact hcdl
  · rw [if_neg h0]
    cases hs : (st.nodeMap.find? (fun e => e.1 == path)).isSome with
    | true =>
      rw [if_pos rfl]
      exact hcdl
    | false =>
      rw [if_neg Bool.false_ne_true]
      by_cases hl : level = 1
      · rw [if_pos hl]
        exact append_cdl st path _ _ rfl hcdl
      · rw [if_neg hl]
        exact attach_cdl st path (jsJoin (jsSplit path).dropLast) _ _ rfl rfl hcdl

theorem insertSkuNode_inv (allocs : List Allocation) (defs : List Str) (st : BuildState)
    (sku : Sku) (hcode : sku.skuCode ≠ []) (hinv : BuildInv st) :
    BuildInv (insertSkuNode allocs defs st sku) := by
  simp only [insertSkuNode]
  cases hs : (st.nodeMap.find? (fun e => e.1 ==
      (if buildHierarchyPath sku defs defs.length = [] then sku.skuCode
       else buildHierarchyPath sku defs defs.length ++ '/' :: sku.skuCode))).isSome with
  | true =>
    rw [if_pos rfl]
    exact hinv
  | false =>
    rw [if_neg Bool.false_ne_true]
    have hfresh : (if buildHierarchyPath sku defs defs.length = [] then sku.skuCode
        else buildHierarchyPath sku defs defs.length ++ '/' :: sku.skuCode) ∉ keysOf st := by
      intro hmem
      have h2 := (findKey_isSome st.nodeMap _).mpr hmem
      rw [hs] at h2
      exact Bool.false_ne_true h2
    apply insertAttach_inv st _ _ _ rfl hfresh ?_ hinv
    by_cases hp : buildHierarchyPath sku defs defs.length = []
    · rw [if_pos hp, hp]
      intro h
      exact hcode h.symm
    · rw [if_neg hp]
      intro h
      have := congrArg List.length h
      simp only [List.length_append, List.length_cons] at this
      omega

theorem insertSkuNode_cdl (allocs : List Allocation) (defs : List Str) (st : BuildState)
    (sku : Sku) (hslash : ('/' : Char) ∉ sku.skuCode) (hcdl : ChildrenDropLast st) :
    ChildrenDropLast (insertSkuNode allocs defs st sku) := by
  simp only [insertSkuNode]
  cases hs : (st.nodeMap.find? (fun e => e.1 ==
      (if buildHierarchyPath sku defs defs.length = [] then sku.skuCode
       else buildHierarchyPath sku defs defs.length ++ '/' :: sku.skuCode))).isSome with
  | true =>
    rw [if_pos rfl]
    exact hcdl
  | false =>
    rw [if_neg Bool.false_ne_true]
    apply attach_cdl st _ _ _ _ rfl ?_ hcdl
    by_cases hp : buildHierarchyPath sku defs defs.length = []
    · rw [if_pos hp, hp]
      unfold dropLastSeg
      rw [jsSplit_no_sep sku.skuCode hslash]
      rfl
    · rw [if_neg hp]
      exact dropLastSeg_append _ sku.skuCode hslash

theorem processSku_inv (allocs : List Allocation) (defs : List Str) (st : BuildState)
    (sku : Sku) (hcode : sku.skuCode ≠ []) (hinv : BuildInv st) :
    BuildInv (processSku allocs defs st sku) := by
  unfold processSku
  apply insertSkuNode_inv allocs defs _ sku hcode
  apply foldl_inv BuildInv _ _ _ st hinv
  intro s a _ hs
  exact insertLevelNode_inv allocs s _ a hs

theorem processSku_cdl (allocs : List Allocation) (defs : List Str) (st : BuildState)
    (sku : Sku) (hslash : ('/' : Char) ∉ sku.skuCode) (hcdl : ChildrenDropLast st) :
    ChildrenDropLast (processSku allocs defs st sku) := by
  unfold processSku
  apply insertSkuNode_cdl allocs defs _ sku hslash
  apply foldl_inv ChildrenDropLast _ _ _ st hcdl
  intro s a _ hs
  exact insertLevelNode_cdl allocs s _ a hs

theorem buildState_inv (allocs : List Allocation) (defs : List Str) (skus : List Sku)
    (hcode : ∀ sku ∈ skus, sku.skuCode ≠ []) :
    BuildInv (buildState allocs defs skus) := by
  unfold buildState
  apply foldl_inv BuildInv _ _ _ _ ?_
  · intro s a ha hs
    exact processSku_inv allocs defs s a (hcode a ha) hs
  · constructor
    · exact List.nodup_nil
    · intro q
      simp [keysOf]
    · intro r hr
      exact absurd hr (List.not_mem_nil r)
    · intro e he
      exact absurd he (List.not_mem_nil e)
    · intro e he
      exact absurd he (List.not_mem_nil e)

theorem buildState_cdl (allocs : List Allocation) (defs : List Str) (skus : List Sku)
    (hslash : ∀ sku ∈ skus, ('/' : Char) ∉ sku.skuCode) :
    ChildrenDropLast (buildState allocs defs skus) := by
  unfold buildState
  apply foldl_inv ChildrenDropLast _ _ _ _ ?_
  · intro s a ha hs
    exact processSku_cdl allocs defs s a (hslash a ha) hs
  · intro e he
    exact absurd he (List.not_mem_nil e)

theorem materializeList_not_nil (m : List (Str × NodeEntry)) :
    ∀ f, materializeList m f [] = [] := by
  intro f
  cases f <;> rfl

theorem allNodes_materialize (m : List (Str × NodeEntry)) :
    ∀ f L, (allNodes (materializeList m f L)).map (·.path) = emitPaths m f L := by
  intro f
  induction f with
  | zero =>
    intro L
    simp [materializeList, allNodes, emitPaths]
  | succ f ih =>
    intro L
    induction L with
    | nil => simp [materializeList, allNodes, emitPaths]
    | cons k ks ihL =>
      cases hf : m.find? (fun e => e.1 == k) with
      | some e =>
        have hC : childrenOf m k = e.2.children := by
          unfold childrenOf
          rw [hf]
        simp only [materializeList, List.map_cons, emitPaths, List.flatten_cons, hf] at ihL ⊢
        rw [allNodes]
        simp only [List.map_cons, List.map_append]
        rw [ih e.2.children, ihL, hC, List.cons_append]
      | none =>
        have hC : childrenOf m k = [] := by
          unfold childrenOf
          rw [hf]
        simp only [materializeList, List.map_cons, emitPaths, List.flatten_cons, hf] at ihL ⊢
        rw [allNodes]
        simp only [List.map_cons, List.map_append]
        rw [hC]
        have h1 : ∀ g : Nat, emitPaths m g [] = [] := fun g => by cases g <;> rfl
        simp only [allNodes, h1, List.map_nil, List.nil_append, List.cons_append, ihL]

theorem mem_materializeList_path (m : List (Str × NodeEntry)) :
    ∀ f L n, n ∈ materializeList m f L → n.path ∈ L := by
  intro f L n h
  cases f with
  | zero => exact absurd h (List.not_mem_nil n)
  | succ f =>
    obtain ⟨k, hk, hn⟩ := List.mem_map.mp h
    cases hf : m.find? (fun e => e.1 == k) with
    | some e =>
      rw [← hn]
      simp only [hf]
      exact hk
    | none =>
      rw [← hn]
      simp only [hf]
      exact hk

theorem children_in_childrenOf (m : List (Str × NodeEntry)) :
    ∀ f L, ∀ n ∈ allNodes (materializeList m f L), ∀ c ∈ n.children,
      c.path ∈ childrenOf m n.path := by
  intro f
  induction f with
  | zero =>
    intro L n hn
    simp only [materializeList, allNodes] at hn
    exact absurd hn (List.not_mem_nil n)
  | succ f ih =>
    intro L
    induction L with
    | nil =>
      intro n hn
      simp only [materializeList, List.map_nil, allNodes] at hn
      exact absurd hn (List.not_mem_nil n)
    | cons k ks ihL =>
      intro n hn c hc
      cases hf : m.find? (fun e => e.1 == k) with
      | some e =>
        have hC : childrenOf m k = e.2.children := by
          unfold childrenOf
          rw [hf]
        simp only [materializeList, List.map_cons, hf] at hn ihL
        rw [allNodes] at hn
        rcases List.mem_cons.mp hn with h1 | h1
        · rw [h1] at hc ⊢
          show c.path ∈ childrenOf m k
          rw [hC]
          exact mem_materializeList_path m f e.2.children c hc
        · rcases List.mem_append.mp h1 with h2 | h2
          · exact ih e.2.children n h2 c hc
          · exact ihL n h2 c hc
      | none =>
        have hC : childrenOf m k = [] := by
          unfold childrenOf
          rw [hf]
        simp only [materializeList, List.map_cons, hf] at hn ihL
        rw [allNodes] at hn
        rcases List.mem_cons.mp hn with h1 | h1
        · rw [h1] at hc
          simp only at hc
          exact absurd hc (List.not_mem_nil c)
        · rcases List.mem_append.mp h1 with h2 | h2
          · have h3 : n ∈ allNodes ([] : List HierarchyNode) := h2
            rw [allNodes] at h3
            exact absurd h3 (List.not_mem_nil n)
          · exact ihL n h2 c hc

theorem nodup_of_count_le_one {α : Type} [BEq α] [LawfulBEq α] :
    ∀ l : List α, (∀ q, List.count q l ≤ 1) → l.Nodup := by
  intro l
  induction l with
  | nil => intro _; exact List.nodup_nil
  | cons x xs ih =>
    intro h
    rw [List.nodup_cons]
    constructor
    · intro hx
      have h1 := h x
      rw [List.count_cons] at h1
      have h2 : 0 < List.count x xs := List.count_pos_iff.mpr hx
      simp only [beq_self_eq_true, if_true] at h1
      omega
    · apply ih
      intro q
      have h1 := h q
      rw [List.count_cons] at h1
      omega

/-- C4: counterexample. With hierarchy definitions `["c"]` and one SKU whose
code is `"S/1"` (the code itself contains a separator) and whose sole
hierarchy value is `"A"`, the tree has the root `"A"` with the single child
`"A/S/1"`, yet removing the last `/`-segment of the child's path gives
`"A/S"`, not the parent's path `"A"`. -/
theorem claim4_counterexample :
    ((buildHierarchyTree [] [str ("c")] [skuSlash]).map
      (fun n => (n.path, n.children.map (·.path)))) =
      [(str ("A"), [str ("A/S/1")])] ∧
    dropLastSeg (str ("A/S/1")) ≠ str ("A") := by
  constructor
  · decide
  · decide

/-- C4 (amended): for every allocation list, hierarchy definitions and SKUs
with non-empty codes, every path occurs at most once among the nodes of the
tree produced by `buildHierarchyTree`; and if moreover no SKU code contains
a `/`, then every child's path with its last `/`-segment removed equals its
parent's path. -/
theorem claim4_amended (allocs : List Allocation) (defs : List Str) (skus : List Sku)
    (hne : ∀ sku ∈ skus, sku.skuCode ≠ []) :
    (((allNodes (buildHierarchyTree allocs defs skus)).map (·.path)).Nodup) ∧
    ((∀ sku ∈ skus, ('/' : Char) ∉ sku.skuCode) →
      ∀ n ∈ allNodes (buildHierarchyTree allocs defs skus),
        ∀ c ∈ n.children, dropLastSeg c.path = n.path) := by
  by_cases hsk : skus = []
  · subst hsk
    constructor
    · have h : buildHierarchyTree allocs defs [] = [] := by
        unfold buildHierarchyTree
        rw [if_pos rfl]
      rw [h, allNodes]
      exact List.nodup_nil
    · intro _ n hn
      have h : buildHierarchyTree allocs defs [] = [] := by
        unfold buildHierarchyTree
        rw [if_pos rfl]
      rw [h, allNodes] at hn
      exact absurd hn (List.not_mem_nil n)
  · have hinv := buildState_inv allocs defs skus hne
    have hforest : buildHierarchyTree allocs defs skus
        = materializeList (buildState allocs defs skus).nodeMap (defs.length + 2)
            (buildState allocs defs skus).roots := by
      unfold buildHierarchyTree
      rw [if_neg hsk]
    constructor
    · rw [hforest, allNodes_materialize]
      apply nodup_of_count_le_one
      intro q
      exact emit_count_le_one _ _ hinv.keysNodup hinv.cnt1 hinv.childRank _ q
    · intro hslash n hn c hc
      have hcdl := buildState_cdl allocs defs skus hslash
      rw [hforest] at hn
      have hcp := children_in_childrenOf _ _ _ n hn c hc
      unfold childrenOf at hcp
      cases hf : (buildState allocs defs skus).nodeMap.find? (fun e => e.1 == n.path) with
      | none =>
        rw [hf] at hcp
        exact absurd hcp (List.not_mem_nil _)
      | some e =>
        rw [hf] at hcp
        have h1 := List.find?_some hf
        simp only [beq_iff_eq] at h1
        have h2 : e ∈ (buildState allocs defs skus).nodeMap := List.mem_of_find?_eq_some hf
        rw [← h1]
        exact hcdl e h2 c.path hcp

/-- C4: witness for the amended theorem at a one-SKU input with a plain code. -/
theorem claim4_witness :
    (∀ sku ∈ [skuPlain], sku.skuCode ≠ []) ∧
    ((((allNodes (buildHierarchyTree [] [str ("cat")] [skuPlain])).map (·.path)).Nodup) ∧
      ((∀ sku ∈ [skuPlain], ('/' : Char) ∉ sku.skuCode) →
        ∀ n ∈ allNodes (buildHierarchyTree [] [str ("cat")] [skuPlain]),
          ∀ c ∈ n.children, dropLastSeg c.path = n.path)) :=
  ⟨by decide, claim4_amended [] [str ("cat")] [skuPlain] (by decide)⟩
